import Mathlib

/-!
Verification of the alignment and reconciliation engine of `build_matrix.py`
(repository `howardus-web/antifragile-data`): single-series cleaning
(`clean_single_csv_fixed_format`), master-calendar selection
(`pick_master_ticker`), matrix building, month-end extraction, health metrics
and manifest assembly (`build_market`).

Modelling conventions:
* dates are (year, month, day) triples ordered chronologically; time-of-day is a
  separate component that normalization discards;
* numeric parsing (`pd.to_numeric(..., errors="raise")`) is a token that either
  carries a rational or fails, and date parsing likewise;
* `df.sort_values("Date")` uses pandas' default sort kind, numpy's *unstable*
  quicksort, so the row order it produces is modelled as a parameter `sortFn`
  about which only "date-ordered permutation of the input" (`SortsBy`) is known;
* Python exceptions are an explicit error type and fallible steps return `Except`.
-/

namespace BuildMatrix

/-- Calendar date (year, month, day), the granularity produced by
`pd.to_datetime(...).dt.normalize()`. -/
@[ext]
structure Date where
  y : Nat
  m : Nat
  d : Nat
deriving DecidableEq, Repr

/-- Chronological (lexicographic) strict order on calendar dates. -/
def Date.lt (a b : Date) : Prop :=
  a.y < b.y ∨ (a.y = b.y ∧ (a.m < b.m ∨ (a.m = b.m ∧ a.d < b.d)))

instance : LT Date := ⟨Date.lt⟩

instance (a b : Date) : Decidable (a < b) :=
  inferInstanceAs (Decidable (a.y < b.y ∨ (a.y = b.y ∧ (a.m < b.m ∨ (a.m = b.m ∧ a.d < b.d)))))

instance : LE Date := ⟨fun a b => a < b ∨ a = b⟩

instance (a b : Date) : Decidable (a ≤ b) :=
  inferInstanceAs (Decidable (a < b ∨ a = b))

/-- Days since 1970-01-01 in the proleptic Gregorian calendar (civil-days
algorithm); this is the day arithmetic behind Python's date subtraction
`(a - b).days` used for the staleness lag. -/
def daysFromCivil (dt : Date) : Int :=
  let y : Int := if dt.m ≤ 2 then (dt.y : Int) - 1 else (dt.y : Int)
  let era : Int := (if 0 ≤ y then y else y - 399) / 400
  let yoe : Int := y - era * 400
  let mp : Int := if 2 < dt.m then (dt.m : Int) - 3 else (dt.m : Int) + 9
  let doy : Int := (153 * mp + 2) / 5 + (dt.d : Int) - 1
  let doe : Int := yoe * 365 + yoe / 4 - yoe / 100 + doy
  era * 146097 + doe - 719468

/-- One date cell of a raw CSV row: either a parseable timestamp (a calendar
date plus the time-of-day component that `.dt.normalize()` discards) or a token
on which `pd.to_datetime(..., errors="raise")` raises. -/
inductive DateTok where
  | valid (d : Date) (time : Nat)
  | invalid (s : String)
deriving DecidableEq, Repr

/-- One price cell: either a number or a token on which
`pd.to_numeric(..., errors="raise")` raises. -/
inductive PriceTok where
  | num (q : Rat)
  | bad (s : String)
deriving DecidableEq, Repr

/-- One data row of a source file, after the fixed header skip of
`read_csv(path, skiprows=3, header=None, names=["Date", "AdjClose"])`. -/
structure RawRec where
  dateTok : DateTok
  priceTok : PriceTok
deriving DecidableEq, Repr

def RawRec.dateOk : RawRec → Bool
  | ⟨.valid _ _, _⟩ => true
  | ⟨.invalid _, _⟩ => false

def PriceTok.isNum : PriceTok → Bool
  | .num _ => true
  | .bad _ => false

/-- Error kinds raised by the script, mirroring the Python exception classes.
`noData` stands for the spec's `NoDataError`; it is part of the error vocabulary
but the script itself never raises it. -/
inductive BErr where
  | valueError (s : String)
  | fileNotFound (s : String)
  | formatError (s : String)
  | indexError
  | noData
deriving DecidableEq, Repr

/-- Column-wise `pd.to_datetime(df["Date"], errors="raise").dt.normalize()`:
fails on the whole file if any date token is unparseable; otherwise yields
(normalized date, untouched price token) rows in file order. -/
def parseDates : List RawRec → Except BErr (List (Date × PriceTok))
  | [] => .ok []
  | r :: rs =>
    match r.dateTok with
    | .valid d _ => (parseDates rs).map (fun l => (d, r.priceTok) :: l)
    | .invalid s => .error (.formatError s)

/-- Total variant of the date-parsing pass, keeping only the parseable rows;
equal to the successful `parseDates` result and used to state properties. -/
def datesParsed (recs : List RawRec) : List (Date × PriceTok) :=
  recs.filterMap fun r =>
    match r.dateTok with
    | .valid d _ => some (d, r.priceTok)
    | .invalid _ => none

/-- The `df.drop_duplicates("Date", keep="last")` step: a row survives iff no
later row of the (already sorted) frame carries the same date. -/
def dedupKeepLast : List (Date × PriceTok) → List (Date × PriceTok)
  | [] => []
  | x :: xs =>
    if xs.any (fun y => decide (y.1 = x.1)) then dedupKeepLast xs
    else x :: dedupKeepLast xs

/-- A cleaned series: date-indexed rational observations, as produced by
`df.set_index("Date")["AdjClose"]`. -/
abbrev Series := List (Date × Rat)

/-- Column-wise `pd.to_numeric(df["AdjClose"], errors="raise")`.  In the script
this runs only after the sort and de-dup steps. -/
def parsePrices : List (Date × PriceTok) → Except BErr Series
  | [] => .ok []
  | (d, .num q) :: rest => (parsePrices rest).map (fun l => (d, q) :: l)
  | (_, .bad s) :: _ => .error (.formatError s)

/-- Row order produced by `df.sort_values("Date")`: pandas' default sort kind
is numpy's unstable quicksort, so all that is guaranteed is that the output is a
permutation of the input rows with ascending dates. -/
def SortsBy (out inp : List (Date × PriceTok)) : Prop :=
  List.Perm out inp ∧ out.Pairwise (fun a b => a.1 ≤ b.1)

instance (out inp : List (Date × PriceTok)) : Decidable (SortsBy out inp) :=
  inferInstanceAs
    (Decidable (List.Perm out inp ∧
      out.Pairwise (fun a b : Date × PriceTok => a.1 ≤ b.1)))

abbrev SortFn := List (Date × PriceTok) → List (Date × PriceTok)

/-- The body of `clean_single_csv_fixed_format`, parameterized by the row order
`sortFn` that `df.sort_values("Date")` produces: parse dates, sort, de-dup
keeping the last row per date, then parse prices. -/
def clean_single_csv_fixed_format (sortFn : SortFn) (recs : List RawRec) :
    Except BErr Series :=
  match parseDates recs with
  | .error e => .error e
  | .ok parsed => parsePrices (dedupKeepLast (sortFn parsed))

/-- Lexicographic comparison of character lists by code point, the order Python
uses to compare strings (`sorted`, `min`, `<`). -/
def lexLe : List Char → List Char → Bool
  | [], _ => true
  | _ :: _, [] => false
  | a :: as, b :: bs =>
    if a.toNat < b.toNat then true
    else if b.toNat < a.toNat then false
    else lexLe as bs

/-- Strict lexicographic comparison of character lists by code point. -/
def lexLt : List Char → List Char → Bool
  | [], [] => false
  | [], _ :: _ => true
  | _ :: _, [] => false
  | a :: as, b :: bs =>
    if a.toNat < b.toNat then true
    else if b.toNat < a.toNat then false
    else lexLt as bs

def strLe (s t : String) : Bool := lexLe s.data t.data

def strLt (s t : String) : Bool := lexLt s.data t.data

/-- Python's `str.upper()` on ASCII symbols, applied to filename stems. -/
def upChar (c : Char) : Char :=
  if 97 ≤ c.toNat ∧ c.toNat ≤ 122 then Char.ofNat (c.toNat - 32) else c

def upperStr (s : String) : String := ⟨s.data.map upChar⟩

/-- Insertion step of `sortLe`. -/
def insLe {α : Type} (le : α → α → Bool) (x : α) : List α → List α
  | [] => [x]
  | y :: ys => if le x y then x :: y :: ys else y :: insLe le x ys

/-- Insertion sort; models Python's `sorted` (a correct, stable sort) for the
file-path, ticker and groupby-key orderings, and pandas' stable multi-key
`sort_values` for the health report. -/
def sortLe {α : Type} (le : α → α → Bool) : List α → List α
  | [] => []
  | x :: xs => insLe le x (sortLe le xs)

/-- Python dict assignment `m[k] = v`: overwrite in place, else append. -/
def upsert {α : Type} (k : String) (v : α) : List (String × α) → List (String × α)
  | [] => [(k, v)]
  | (k', v') :: rest => if k' = k then (k, v) :: rest else (k', v') :: upsert k v rest

/-- Python dict lookup `m.get(k)`. -/
def getVal {α : Type} (k : String) : List (String × α) → Option α
  | [] => none
  | (k', v) :: rest => if k' = k then some v else getVal k rest

/-- One source CSV file: its path, filename stem, raw bytes (hashed for the
manifest) and the data rows that `read_csv(path, skiprows=3, ...)` yields. -/
structure MFile where
  path : String
  stem : String
  bytes : List Nat
  recs : List RawRec
deriving DecidableEq, Repr

/-- The instrument symbol of a file: the uppercased stem (`p.stem.upper()`). -/
def stemKey (f : MFile) : String := upperStr f.stem

/-- File ordering of `sorted(in_dir.glob("*.csv"))`: by path. -/
def fileLe (f g : MFile) : Bool := strLe f.path g.path

/-- Stand-in for `sha256_file`: every claim depends only on the digest being a
pure deterministic function of the raw file bytes (the fixed-size chunked
reading does not change the digest), so a simple deterministic fold models the
cryptographic hash. -/
def sha256Bytes (bs : List Nat) : Nat :=
  bs.foldl (fun h b => (h * 33 + b) % (2 ^ 64)) 5381

def maxD (a b : Date) : Date := if a < b then b else a

def minD (a b : Date) : Date := if b < a then b else a

/-- Maximum of a date index (`index.max()`); a default on the empty index. -/
def dmaxL : List Date → Date
  | [] => ⟨0, 0, 0⟩
  | x :: xs => xs.foldl maxD x

/-- Minimum of a date index (`index.min()`); a default on the empty index. -/
def dminL : List Date → Date
  | [] => ⟨0, 0, 0⟩
  | x :: xs => xs.foldl minD x

/-- Per-file provenance entry of the manifest (`file_meta[t]`). -/
structure FileMeta where
  file : String
  sha256 : Nat
  rows : Nat
  minDate : Date
  maxDate : Date
deriving DecidableEq, Repr

/-- The `file_meta[t]` entry assembled in the load loop of `build_market`. -/
def mkMeta (f : MFile) (s : Series) : FileMeta :=
  { file := f.path
    sha256 := sha256Bytes f.bytes
    rows := s.length
    minDate := dminL (s.map Prod.fst)
    maxDate := dmaxL (s.map Prod.fst) }

/-- The per-file load loop of `build_market`: clean each file in order,
overwriting `series_map[t]` and `file_meta[t]` for the file's uppercased stem. -/
def loadFiles (sortFn : SortFn)
    (acc : List (String × Series) × List (String × FileMeta)) :
    List MFile → Except BErr (List (String × Series) × List (String × FileMeta))
  | [] => .ok acc
  | f :: fs =>
    match clean_single_csv_fixed_format sortFn f.recs with
    | .error e => .error e
    | .ok s =>
      loadFiles sortFn
        (upsert (stemKey f) s acc.1, upsert (stemKey f) (mkMeta f s) acc.2) fs

/-- `pick_master_ticker`: the first preferred symbol present in the available
set, else `sorted(list(available))[0]` — an expression that raises `IndexError`
when the available set is empty. -/
def pick_master_ticker (preferred_master : List String) (available : List String) :
    Except BErr String :=
  match preferred_master.find? (fun t => available.contains t) with
  | some t => .ok t
  | none =>
    match sortLe strLe available with
    | [] => .error .indexError
    | t :: _ => .ok t

/-- Refinement reference, modelled from the spec's words for `CalendarSelector`:
"return the first preference-list symbol that is present in the available set;
if none of the preference list is available, fall back to the lexicographically
smallest available symbol". -/
def specPickMaster (preferred_master : List String) (available : List String) :
    Option String :=
  match preferred_master.find? (fun t => available.contains t) with
  | some t => some t
  | none =>
    match available with
    | [] => none
    | x :: xs => some (xs.foldl (fun a b => if strLt b a then b else a) x)

def ymKey (dt : Date) : Nat × Nat := (dt.y, dt.m)

/-- Ascending order on groupby keys (Year, Month). -/
def ymLe (a b : Nat × Nat) : Bool := decide (a.1 < b.1 ∨ (a.1 = b.1 ∧ a.2 ≤ b.2))

/-- Month-end extraction from the master calendar:
`groupby(["Year", "Month"], as_index=False)["MonthEndDate"].max()` — the
distinct (year, month) keys in ascending order, each with its group's maximum
calendar date. -/
def monthEnds (dates : List Date) : List (Nat × Nat × Date) :=
  (sortLe ymLe (dates.map ymKey).dedup).map fun k =>
    (k.1, k.2, dmaxL (dates.filter fun dt => decide (ymKey dt = k)))

/-- The `series.reindex(master_dates)` cell at one date: the observation at
exactly that date if one exists, else the absent marker. -/
def lookupDate (s : Series) (dt : Date) : Option Rat :=
  (s.find? fun x => decide (x.1 = dt)).map Prod.snd

/-- One row of the health report. `missingPctMilli` holds the missing
percentage in exact thousandths (the script's float rounded to 3 decimals,
encoded losslessly as an integer of units 0.001%). -/
structure HealthRow where
  ticker : String
  minDate : Date
  maxDate : Date
  rows : Nat
  lag : Int
  missing : Nat
  missingPctMilli : Nat
deriving DecidableEq, Repr

/-- Round-half-to-even of the exact fraction `num / den`, as numpy's `round`
(used by `.round(3)`) does.  Returns 0 for `den = 0` (the script would produce
a NaN percentage only when the master calendar is empty). -/
def roundHalfEvenDiv (num den : Nat) : Nat :=
  if den = 0 then 0
  else
    let q := num / den
    let r := num % den
    if 2 * r < den then q
    else if den < 2 * r then q + 1
    else if q % 2 = 0 then q else q + 1

/-- One health-report row for ticker `t`: min/max date and row count of its
series, staleness lag in whole days against the master's last date, and
missing-cell statistics of its full-matrix column. -/
def mkHealth (smap : List (String × Series)) (masterDates : List Date)
    (t : String) : HealthRow :=
  let s := (getVal t smap).getD []
  let ds := s.map Prod.fst
  let missing := (masterDates.filter fun dt => (lookupDate s dt).isNone).length
  { ticker := t
    minDate := dminL ds
    maxDate := dmaxL ds
    rows := s.length
    lag := daysFromCivil (dmaxL masterDates) - daysFromCivil (dmaxL ds)
    missing := missing
    missingPctMilli := roundHalfEvenDiv (missing * 100000) masterDates.length }

/-- Health-report ordering:
`sort_values(["LagToMasterMax_Days", "Ticker"], ascending=[False, True])`. -/
def healthLe (a b : HealthRow) : Bool :=
  decide (b.lag < a.lag) || (decide (a.lag = b.lag) && strLe a.ticker b.ticker)

/-- The manifest record written to `manifest.json` (output paths omitted:
persistence is outside the engine). -/
structure Manifest where
  scope : String
  in_dir : String
  master_ticker : String
  master_min_date : Date
  master_max_date : Date
  master_trading_days : Nat
  tickers : List String
  matrix_rows : Nat
  matrix_cols : Nat
  matrix_min_date : Date
  matrix_max_date : Date
  nan_cells : Nat
  months : Nat
  files : List (String × FileMeta)
deriving DecidableEq, Repr

/-- Per-market configuration (`MARKETS[market]`). -/
structure Config where
  market : String
  in_dir : String
  preferred_master : List String
deriving DecidableEq, Repr

/-- All artifacts of one `build_market` run. -/
structure Market where
  tickers : List String
  master : String
  masterDates : List Date
  seriesMap : List (String × Series)
  matrix : List (List (Option Rat))
  monthEnds : List (Nat × Nat × Date)
  health : List HealthRow
  manifest : Manifest
deriving DecidableEq, Repr

/-- Assembly of the artifacts of `build_market` once the series are loaded and
the master is picked: the full matrix aligned to the master calendar (pure
reindex, one column per ticker), the month-end calendar, the health report and
the manifest. -/
def mkMarket (cfg : Config) (smap : List (String × Series))
    (fmeta : List (String × FileMeta)) (tickers : List String)
    (master : String) : Market :=
  let masterSeries := (getVal master smap).getD []
  let masterDates := masterSeries.map Prod.fst
  let matrix := masterDates.map fun dt =>
    tickers.map fun t => lookupDate ((getVal t smap).getD []) dt
  let mes := monthEnds masterDates
  let health := sortLe healthLe (tickers.map fun t => mkHealth smap masterDates t)
  { tickers := tickers
    master := master
    masterDates := masterDates
    seriesMap := smap
    matrix := matrix
    monthEnds := mes
    health := health
    manifest :=
      { scope := upperStr cfg.market ++ "_FULL_MATRIX"
        in_dir := cfg.in_dir
        master_ticker := master
        master_min_date := dminL masterDates
        master_max_date := dmaxL masterDates
        master_trading_days := masterDates.length
        tickers := tickers
        matrix_rows := matrix.length
        matrix_cols := tickers.length
        matrix_min_date := dminL masterDates
        matrix_max_date := dmaxL masterDates
        nan_cells := (matrix.map fun row => (row.filter fun c => c.isNone).length).sum
        months := mes.length
        files := fmeta } }

/-- `build_market` on one market's input files (`files` is what
`in_dir.glob("*.csv")` finds; the script sorts them by path): load and clean
every file, pick the master ticker, and assemble all artifacts. -/
def build_market (sortFn : SortFn) (cfg : Config) (files : List MFile) :
    Except BErr Market :=
  if files.isEmpty then .error (.fileNotFound cfg.in_dir)
  else
    match loadFiles sortFn ([], []) (sortLe fileLe files) with
    | .error e => .error e
    | .ok p =>
      match pick_master_ticker cfg.preferred_master (sortLe strLe (p.1.map Prod.fst)) with
      | .error e => .error e
      | .ok master =>
        .ok (mkMarket cfg p.1 p.2 (sortLe strLe (p.1.map Prod.fst)) master)

/-- The ambient state a run executes in: the input files found on disk plus a
wall clock.  `build_market` reads only the files, never the clock. -/
structure Env where
  files : List MFile
  clock : Nat
deriving DecidableEq, Repr

/-- One run of the build inside environment `env`. -/
def buildEnv (sortFn : SortFn) (cfg : Config) (env : Env) : Except BErr Market :=
  build_market sortFn cfg env.files

def isOkE {α : Type} : Except BErr α → Bool
  | .ok _ => true
  | .error _ => false

instance {ε α : Type} [DecidableEq ε] [DecidableEq α] : DecidableEq (Except ε α) :=
  fun x y =>
    match x, y with
    | .ok a, .ok b =>
      decidable_of_iff (a = b) ⟨fun h => by rw [h], fun h => by injection h⟩
    | .ok _, .error _ => isFalse (fun h => Except.noConfusion h)
    | .error _, .ok _ => isFalse (fun h => Except.noConfusion h)
    | .error e, .error f =>
      decidable_of_iff (e = f) ⟨fun h => by rw [h], fun h => by injection h⟩

/-- The last file of a list whose uppercased stem is `t` — the one whose series
and metadata survive the overwriting dict updates of the load loop. -/
def lastFileWith (t : String) : List MFile → Option MFile
  | [] => none
  | f :: fs =>
    match lastFileWith t fs with
    | some g => some g
    | none => if stemKey f = t then some f else none

/-- Python's `min` over a nonempty string list, via a left fold. -/
def strFoldMin (x : String) (xs : List String) : String :=
  xs.foldl (fun a b => if strLt b a then b else a) x

/-- The cleaned series a built market holds for symbol `t`. -/
def seriesOf (mkt : Market) (t : String) : Series := (getVal t mkt.seriesMap).getD []

/-- The price value of the last raw record carrying date `dt`, in original
(pre-sort) file order — the value the dedup contract says must survive. -/
def lastValFor (dt : Date) (recs : List RawRec) : Option PriceTok :=
  (((datesParsed recs).filter fun x => decide (x.1 = dt)).getLast?).map Prod.snd

/-! Concrete fixtures used to witness and refute claims. -/

def dJan2 : Date := ⟨2020, 1, 2⟩
def dJan3 : Date := ⟨2020, 1, 3⟩
def dJan6 : Date := ⟨2020, 1, 6⟩
def dJan8 : Date := ⟨2020, 1, 8⟩

/-- A well-formed raw record: parseable date at midnight, parseable price. -/
def rec0 (dt : Date) (q : Rat) : RawRec := ⟨.valid dt 0, .num q⟩

/-- The identity row order: a legitimate sort result whenever the parsed rows
already appear in ascending date order. -/
def idSort : SortFn := fun l => l

def fileM : MFile :=
  { path := "us/M.csv", stem := "M", bytes := [3, 1]
    recs := [rec0 dJan2 1, rec0 dJan3 2, rec0 dJan6 3] }

def fileZ : MFile :=
  { path := "us/Z.csv", stem := "Z", bytes := [7]
    recs := [rec0 dJan2 4, rec0 dJan8 5] }

def cfg0 : Config := { market := "us", in_dir := "us", preferred_master := ["M"] }

def files0 : List MFile := [fileM, fileZ]

def sM : Series := [(dJan2, 1), (dJan3, 2), (dJan6, 3)]
def sZ : Series := [(dJan2, 4), (dJan8, 5)]

def smap0 : List (String × Series) := [("M", sM), ("Z", sZ)]
def fmeta0 : List (String × FileMeta) := [("M", mkMeta fileM sM), ("Z", mkMeta fileZ sZ)]

/-- The market the build produces on `files0`. -/
def mkt0 : Market := mkMarket cfg0 smap0 fmeta0 ["M", "Z"] "M"

/-- Seventeen data rows: sixteen records share one date (values record their
file position), one later-dated record follows.  Seventeen rows is the numpy
threshold above which `sort_values`' default introsort starts partitioning
instead of insertion-sorting, and partitioning reorders equal keys. -/
def recs17 : List RawRec :=
  [rec0 dJan2 0, rec0 dJan2 1, rec0 dJan2 2, rec0 dJan2 3,
   rec0 dJan2 4, rec0 dJan2 5, rec0 dJan2 6, rec0 dJan2 7,
   rec0 dJan2 8, rec0 dJan2 9, rec0 dJan2 10, rec0 dJan2 11,
   rec0 dJan2 12, rec0 dJan2 13, rec0 dJan2 14, rec0 dJan2 15,
   rec0 dJan3 100]

/-- The row order numpy's introsort (`np.argsort(kind="quicksort")`, the
pandas `sort_values` default) produces on the 17 rows of `recs17`: one
median-of-three partition pass swaps the equal-date rows symmetrically, leaving
original row 7 — not row 15 — as the last row of the duplicated date. -/
def npSorted17 : List (Date × PriceTok) :=
  [(dJan2, .num 0), (dJan2, .num 14), (dJan2, .num 13), (dJan2, .num 12),
   (dJan2, .num 11), (dJan2, .num 10), (dJan2, .num 9), (dJan2, .num 15),
   (dJan2, .num 8), (dJan2, .num 6), (dJan2, .num 5), (dJan2, .num 4),
   (dJan2, .num 3), (dJan2, .num 2), (dJan2, .num 1), (dJan2, .num 7),
   (dJan3, .num 100)]

def npSortFn : SortFn := fun _ => npSorted17

/-- Two records on the same date whose earlier occurrence has an unparseable
price token. -/
def recsBadDup : List RawRec :=
  [⟨.valid dJan2 0, .bad "oops"⟩, ⟨.valid dJan2 0, .num 5⟩]

/-- Case-colliding stems: `ZA` and `Za` both uppercase to `ZA`. -/
def fileZA : MFile :=
  { path := "us/ZA.csv", stem := "ZA", bytes := [4], recs := [rec0 dJan2 10] }

def fileZa2 : MFile :=
  { path := "us/Za.csv", stem := "Za", bytes := [5]
    recs := [rec0 dJan2 20, rec0 dJan6 21] }

def files10 : List MFile := [fileM, fileZA, fileZa2]

/-! Basic lemmas about the embedding. -/

theorem Date.lt_def {a b : Date} :
    a < b ↔ a.y < b.y ∨ (a.y = b.y ∧ (a.m < b.m ∨ (a.m = b.m ∧ a.d < b.d))) := Iff.rfl

theorem Date.le_def {a b : Date} : a ≤ b ↔ a < b ∨ a = b := Iff.rfl

theorem Date.le_refl (a : Date) : a ≤ a := Or.inr rfl

theorem Date.le_trans {a b c : Date} (h₁ : a ≤ b) (h₂ : b ≤ c) : a ≤ c := by
  simp only [Date.le_def, Date.lt_def, Date.ext_iff] at *
  omega

theorem Date.lt_trans {a b c : Date} (h₁ : a < b) (h₂ : b < c) : a < c := by
  simp only [Date.lt_def] at *
  omega

theorem Date.le_total (a b : Date) : a ≤ b ∨ b ≤ a := by
  simp only [Date.le_def, Date.lt_def, Date.ext_iff]
  omega

theorem Date.le_antisymm {a b : Date} (h₁ : a ≤ b) (h₂ : b ≤ a) : a = b := by
  simp only [Date.le_def, Date.lt_def, Date.ext_iff] at *
  omega

theorem Date.lt_of_le_of_ne {a b : Date} (h₁ : a ≤ b) (h₂ : a ≠ b) : a < b := by
  rcases h₁ with h | h
  · exact h
  · exact absurd h h₂

theorem Date.le_of_lt {a b : Date} (h : a < b) : a ≤ b := Or.inl h

theorem Date.lt_irrefl (a : Date) : ¬ a < a := by
  simp only [Date.lt_def]
  omega

/-- Sanity anchor for the day-count function: the epoch maps to day 0. -/
theorem daysFromCivil_epoch : daysFromCivil ⟨1970, 1, 1⟩ = 0 := by decide

@[simp] theorem isOkE_ok {α : Type} (a : α) : isOkE (Except.ok a) = true := rfl

@[simp] theorem isOkE_error {α : Type} (e : BErr) :
    isOkE (Except.error e : Except BErr α) = false := rfl

@[simp] theorem isOkE_map {α β : Type} (f : α → β) (e : Except BErr α) :
    isOkE (e.map f) = isOkE e := by
  cases e <;> rfl

theorem Date.le_of_not_lt {a b : Date} (h : ¬ a < b) : b ≤ a := by
  simp only [Date.lt_def, Date.le_def, Date.ext_iff] at *
  omega

theorem parseDates_ok_iff (recs : List RawRec) :
    isOkE (parseDates recs) = true ↔ ∀ r ∈ recs, r.dateOk = true := by
  induction recs with
  | nil => simp [parseDates]
  | cons r rs ih =>
    obtain ⟨dtk, ptk⟩ := r
    cases dtk with
    | valid d tm => simp [parseDates, RawRec.dateOk, ih]
    | invalid s => simp [parseDates, RawRec.dateOk]

theorem parseDates_ok_eq {recs : List RawRec} {l : List (Date × PriceTok)}
    (h : parseDates recs = .ok l) : l = datesParsed recs := by
  induction recs generalizing l with
  | nil =>
    simp only [parseDates, Except.ok.injEq] at h
    simp [datesParsed, ← h]
  | cons r rs ih =>
    obtain ⟨dtk, ptk⟩ := r
    cases dtk with
    | valid d tm =>
      simp only [parseDates] at h
      cases hp : parseDates rs with
      | error e => rw [hp] at h; simp [Except.map] at h
      | ok l' =>
        rw [hp] at h
        simp only [Except.map, Except.ok.injEq] at h
        subst h
        simp [datesParsed, List.filterMap_cons, ih hp]
    | invalid s => simp [parseDates] at h

theorem parseDates_error_form {recs : List RawRec} {e : BErr}
    (h : parseDates recs = .error e) : ∃ s, e = .formatError s := by
  induction recs generalizing e with
  | nil => simp [parseDates] at h
  | cons r rs ih =>
    obtain ⟨dtk, ptk⟩ := r
    cases dtk with
    | valid d tm =>
      simp only [parseDates] at h
      cases hp : parseDates rs with
      | error e' =>
        rw [hp] at h
        simp only [Except.map, Except.error.injEq] at h
        exact h ▸ ih hp
      | ok l' => rw [hp] at h; simp [Except.map] at h
    | invalid s =>
      simp only [parseDates, Except.error.injEq] at h
      exact ⟨s, h.symm⟩

theorem parsePrices_ok_iff (l : List (Date × PriceTok)) :
    isOkE (parsePrices l) = true ↔ ∀ x ∈ l, x.2.isNum = true := by
  induction l with
  | nil => simp [parsePrices]
  | cons x xs ih =>
    obtain ⟨d, ptk⟩ := x
    cases ptk with
    | num q => simp [parsePrices, PriceTok.isNum, ih]
    | bad s => simp [parsePrices, PriceTok.isNum]

theorem parsePrices_map_fst {l : List (Date × PriceTok)} {s : Series}
    (h : parsePrices l = .ok s) : s.map Prod.fst = l.map Prod.fst := by
  induction l generalizing s with
  | nil =>
    simp only [parsePrices, Except.ok.injEq] at h
    simp [← h]
  | cons x xs ih =>
    obtain ⟨d, ptk⟩ := x
    cases ptk with
    | num q =>
      simp only [parsePrices] at h
      cases hp : parsePrices xs with
      | error e => rw [hp] at h; simp [Except.map] at h
      | ok s' =>
        rw [hp] at h
        simp only [Except.map, Except.ok.injEq] at h
        subst h
        simp [ih hp]
    | bad str => simp [parsePrices] at h

theorem parsePrices_error_form {l : List (Date × PriceTok)} {e : BErr}
    (h : parsePrices l = .error e) : ∃ s, e = .formatError s := by
  induction l generalizing e with
  | nil => simp [parsePrices] at h
  | cons x xs ih =>
    obtain ⟨d, ptk⟩ := x
    cases ptk with
    | num q =>
      simp only [parsePrices] at h
      cases hp : parsePrices xs with
      | error e' =>
        rw [hp] at h
        simp only [Except.map, Except.error.injEq] at h
        exact h ▸ ih hp
      | ok s' => rw [hp] at h; simp [Except.map] at h
    | bad str =>
      simp only [parsePrices, Except.error.injEq] at h
      exact ⟨str, h.symm⟩

theorem dedupKeepLast_sublist (l : List (Date × PriceTok)) :
    (dedupKeepLast l).Sublist l := by
  induction l with
  | nil => simp [dedupKeepLast]
  | cons x xs ih =>
    by_cases h : xs.any (fun y => decide (y.1 = x.1)) = true
    · simp only [dedupKeepLast, h, if_true]
      exact ih.cons x
    · simp only [dedupKeepLast, h, if_false]
      exact ih.cons₂ x

theorem dedupKeepLast_dates_nodup (l : List (Date × PriceTok)) :
    (dedupKeepLast l).Pairwise (fun a b => a.1 ≠ b.1) := by
  induction l with
  | nil => simp [dedupKeepLast]
  | cons x xs ih =>
    by_cases h : xs.any (fun y => decide (y.1 = x.1)) = true
    · simpa [dedupKeepLast, h] using ih
    · simp only [dedupKeepLast, h, if_false]
      refine List.Pairwise.cons ?_ ih
      intro y hy hxy
      have hmem : y ∈ xs := (dedupKeepLast_sublist xs).subset hy
      simp only [List.any_eq_true, decide_eq_true_eq] at h
      exact h ⟨y, hmem, hxy.symm⟩

theorem dedupKeepLast_mem_date {l : List (Date × PriceTok)} {dt : Date} :
    dt ∈ (dedupKeepLast l).map Prod.fst ↔ dt ∈ l.map Prod.fst := by
  induction l with
  | nil => simp [dedupKeepLast]
  | cons x xs ih =>
    by_cases h : xs.any (fun y => decide (y.1 = x.1)) = true
    · simp only [dedupKeepLast, h, if_true, List.map_cons, List.mem_cons]
      rw [ih]
      constructor
      · exact Or.inr
      · rintro (heq | hmem)
        · simp only [List.any_eq_true, decide_eq_true_eq] at h
          obtain ⟨y, hy, hyx⟩ := h
          exact heq ▸ hyx ▸ List.mem_map_of_mem Prod.fst hy
        · exact hmem
    · have hrw : dedupKeepLast (x :: xs) = x :: dedupKeepLast xs := by
        simp [dedupKeepLast, h]
      rw [hrw, List.map_cons, List.mem_cons, ih, List.map_cons, List.mem_cons]

/-- Members of `a :: xs` are bounded by the running `foldl maxD` maximum. -/
theorem le_foldl_maxD (xs : List Date) (a : Date) :
    ∀ x ∈ a :: xs, x ≤ xs.foldl maxD a := by
  induction xs generalizing a with
  | nil =>
    intro x hx
    simp only [List.mem_singleton] at hx
    exact hx ▸ Date.le_refl x
  | cons y ys ih =>
    intro x hx
    have hstep : ∀ z ∈ (maxD a y) :: ys, z ≤ (y :: ys).foldl maxD a := by
      intro z hz
      simpa [List.foldl_cons] using ih (maxD a y) z hz
    have ha : a ≤ maxD a y := by
      unfold maxD
      by_cases hlt : a < y
      · simpa [hlt] using Date.le_of_lt hlt
      · simp [hlt, Date.le_refl]
    have hy : y ≤ maxD a y := by
      unfold maxD
      by_cases hlt : a < y
      · simp [hlt, Date.le_refl]
      · simpa [hlt] using Date.le_of_not_lt hlt
    rcases List.mem_cons.mp hx with rfl | hx'
    · exact Date.le_trans ha (hstep _ (List.mem_cons_self _ _))
    rcases List.mem_cons.mp hx' with rfl | hx''
    · exact Date.le_trans hy (hstep _ (List.mem_cons_self _ _))
    · exact hstep x (List.mem_cons_of_mem _ hx'')

theorem foldl_maxD_mem (xs : List Date) (a : Date) : xs.foldl maxD a ∈ a :: xs := by
  induction xs generalizing a with
  | nil => simp
  | cons y ys ih =>
    have := ih (maxD a y)
    have hmax : maxD a y = a ∨ maxD a y = y := by
      unfold maxD
      by_cases hlt : a < y <;> simp [hlt]
    simp only [List.foldl_cons]
    rcases List.mem_cons.mp this with heq | hmem
    · rcases hmax with h' | h' <;> rw [heq, h'] <;> simp
    · exact List.mem_cons_of_mem _ (List.mem_cons_of_mem _ hmem)

theorem dmaxL_mem {l : List Date} (h : l ≠ []) : dmaxL l ∈ l := by
  cases l with
  | nil => exact absurd rfl h
  | cons x xs => exact foldl_maxD_mem xs x

theorem le_dmaxL {l : List Date} : ∀ x ∈ l, x ≤ dmaxL l := by
  cases l with
  | nil => intro x hx; simp at hx
  | cons a xs => exact le_foldl_maxD xs a

/-! Lemmas about the insertion sort used to model `sorted` and `sort_values`. -/

theorem insLe_perm {α : Type} (le : α → α → Bool) (x : α) (l : List α) :
    List.Perm (insLe le x l) (x :: l) := by
  induction l with
  | nil => exact List.Perm.refl _
  | cons y ys ih =>
    by_cases h : le x y = true
    · simp only [insLe, h, if_true]
      exact List.Perm.refl _
    · have hrw : insLe le x (y :: ys) = y :: insLe le x ys := by simp [insLe, h]
      rw [hrw]
      exact List.Perm.trans (ih.cons y) (List.Perm.swap x y ys)

theorem sortLe_perm {α : Type} (le : α → α → Bool) (l : List α) :
    List.Perm (sortLe le l) l := by
  induction l with
  | nil => exact List.Perm.refl _
  | cons x xs ih =>
    exact List.Perm.trans (insLe_perm le x (sortLe le xs)) (ih.cons x)

theorem sortLe_mem {α : Type} {le : α → α → Bool} {l : List α} {a : α} :
    a ∈ sortLe le l ↔ a ∈ l := (sortLe_perm le l).mem_iff

theorem insLe_pairwise {α : Type} {le : α → α → Bool}
    (htot : ∀ a b, le a b = true ∨ le b a = true)
    (htr : ∀ a b c, le a b = true → le b c = true → le a c = true)
    (x : α) {l : List α} (h : l.Pairwise (fun a b => le a b = true)) :
    (insLe le x l).Pairwise (fun a b => le a b = true) := by
  induction l with
  | nil => simp [insLe]
  | cons y ys ih =>
    rcases List.pairwise_cons.mp h with ⟨hy, hys⟩
    by_cases hxy : le x y = true
    · have hrw : insLe le x (y :: ys) = x :: y :: ys := by simp [insLe, hxy]
      rw [hrw]
      refine List.Pairwise.cons ?_ h
      intro z hz
      rcases List.mem_cons.mp hz with rfl | hz'
      · exact hxy
      · exact htr x y z hxy (hy z hz')
    · have hyx : le y x = true := (htot x y).resolve_left hxy
      have hrw : insLe le x (y :: ys) = y :: insLe le x ys := by simp [insLe, hxy]
      rw [hrw]
      refine List.Pairwise.cons ?_ (ih hys)
      intro z hz
      have hz' : z ∈ x :: ys := (insLe_perm le x ys).mem_iff.mp hz
      rcases List.mem_cons.mp hz' with rfl | hz''
      · exact hyx
      · exact hy z hz''

theorem sortLe_pairwise {α : Type} {le : α → α → Bool}
    (htot : ∀ a b, le a b = true ∨ le b a = true)
    (htr : ∀ a b c, le a b = true → le b c = true → le a c = true)
    (l : List α) : (sortLe le l).Pairwise (fun a b => le a b = true) := by
  induction l with
  | nil => simp [sortLe]
  | cons x xs ih => exact insLe_pairwise htot htr x ih

/-! Lemmas about the code-point lexicographic string order. -/

theorem charNat_inj {a b : Char} (h : a.toNat = b.toNat) : a = b :=
  Char.eq_of_val_eq (UInt32.eq_of_val_eq (Fin.ext h))

theorem lexLe_refl (a : List Char) : lexLe a a = true := by
  induction a with
  | nil => rfl
  | cons c cs ih => simp [lexLe, ih]

theorem lexLe_total (a b : List Char) : lexLe a b = true ∨ lexLe b a = true := by
  induction a generalizing b with
  | nil => exact Or.inl rfl
  | cons c cs ih =>
    cases b with
    | nil => exact Or.inr rfl
    | cons e es =>
      by_cases h1 : c.toNat < e.toNat
      · left; simp [lexLe, h1]
      by_cases h2 : e.toNat < c.toNat
      · right; simp [lexLe, h2]
      · rcases ih es with h | h
        · left; simp [lexLe, h1, h2, h]
        · right; simp [lexLe, h1, h2, h]

theorem lexLe_trans {a b c : List Char} (h₁ : lexLe a b = true)
    (h₂ : lexLe b c = true) : lexLe a c = true := by
  induction a generalizing b c with
  | nil => rfl
  | cons x xs ih =>
    cases b with
    | nil => simp [lexLe] at h₁
    | cons y ys =>
      cases c with
      | nil => simp [lexLe] at h₂
      | cons z zs =>
        simp only [lexLe] at h₁ h₂ ⊢
        by_cases hxy : x.toNat < y.toNat
        · by_cases hyz : y.toNat < z.toNat
          · simp [show x.toNat < z.toNat by omega]
          · by_cases hzy : z.toNat < y.toNat
            · exfalso; simp [hyz, hzy] at h₂
            · simp [show x.toNat < z.toNat by omega]
        · by_cases hyx : y.toNat < x.toNat
          · simp [hxy, hyx] at h₁
          · -- x.toNat = y.toNat
            by_cases hyz : y.toNat < z.toNat
            · simp [show x.toNat < z.toNat by omega]
            · by_cases hzy : z.toNat < y.toNat
              · simp [hyz, hzy] at h₂
              · simp only [hxy, if_false, hyx] at h₁
                simp only [hyz, if_false, hzy] at h₂
                simp only [show ¬ x.toNat < z.toNat by omega, if_false,
                  show ¬ z.toNat < x.toNat by omega]
                exact ih h₁ h₂

theorem lexLe_antisymm {a b : List Char} (h₁ : lexLe a b = true)
    (h₂ : lexLe b a = true) : a = b := by
  induction a generalizing b with
  | nil =>
    cases b with
    | nil => rfl
    | cons y ys => simp [lexLe] at h₂
  | cons x xs ih =>
    cases b with
    | nil => simp [lexLe] at h₁
    | cons y ys =>
      simp only [lexLe] at h₁ h₂
      by_cases hxy : x.toNat < y.toNat
      · simp [show ¬ y.toNat < x.toNat by omega, hxy] at h₂
      · by_cases hyx : y.toNat < x.toNat
        · simp [hxy, hyx] at h₁
        · simp only [hxy, if_false, hyx] at h₁
          simp only [hyx, if_false, hxy] at h₂
          have : x = y := charNat_inj (by omega)
          rw [this, ih h₁ h₂]

theorem lexLt_lexLe {a b : List Char} (h : lexLt a b = true) : lexLe a b = true := by
  induction a generalizing b with
  | nil => rfl
  | cons x xs ih =>
    cases b with
    | nil => simp [lexLt] at h
    | cons y ys =>
      simp only [lexLt] at h
      simp only [lexLe]
      by_cases hxy : x.toNat < y.toNat
      · simp [hxy]
      · by_cases hyx : y.toNat < x.toNat
        · simp [hxy, hyx] at h
        · simp only [hxy, if_false, hyx] at h ⊢
          exact ih h

theorem lexLt_irrefl_two {a b : List Char} (h₁ : lexLt a b = true)
    (h₂ : lexLe b a = true) : False := by
  induction a generalizing b with
  | nil =>
    cases b with
    | nil => simp [lexLt] at h₁
    | cons y ys => simp [lexLe] at h₂
  | cons x xs ih =>
    cases b with
    | nil => simp [lexLt] at h₁
    | cons y ys =>
      simp only [lexLt] at h₁
      simp only [lexLe] at h₂
      by_cases hxy : x.toNat < y.toNat
      · simp [show ¬ y.toNat < x.toNat by omega, hxy] at h₂
      · by_cases hyx : y.toNat < x.toNat
        · simp [hxy, hyx] at h₁
        · simp only [hxy, if_false, hyx] at h₁ h₂
          exact ih h₁ h₂

theorem lexLe_of_not_lexLt {a b : List Char} (h : ¬ lexLt b a = true) :
    lexLe a b = true := by
  induction a generalizing b with
  | nil => rfl
  | cons x xs ih =>
    cases b with
    | nil => exact absurd rfl h
    | cons y ys =>
      simp only [lexLt] at h
      simp only [lexLe]
      by_cases hyx : y.toNat < x.toNat
      · simp [hyx] at h
      · by_cases hxy : x.toNat < y.toNat
        · simp [hxy]
        · simp only [hyx, if_false, hxy] at h
          simp only [hxy, if_false, hyx, if_false]
          exact ih h

theorem strLe_total (a b : String) : strLe a b = true ∨ strLe b a = true :=
  lexLe_total a.data b.data

theorem strLe_trans {a b c : String} (h₁ : strLe a b = true)
    (h₂ : strLe b c = true) : strLe a c = true := lexLe_trans h₁ h₂

theorem strLe_antisymm {a b : String} (h₁ : strLe a b = true)
    (h₂ : strLe b a = true) : a = b := String.ext (lexLe_antisymm h₁ h₂)

theorem strLe_refl (a : String) : strLe a a = true := lexLe_refl a.data

theorem strLt_strLe {a b : String} (h : strLt a b = true) : strLe a b = true :=
  lexLt_lexLe h

theorem strLt_strLe_absurd {a b : String} (h₁ : strLt a b = true)
    (h₂ : strLe b a = true) : False := lexLt_irrefl_two h₁ h₂

theorem strLe_of_not_strLt {a b : String} (h : ¬ strLt b a = true) :
    strLe a b = true := lexLe_of_not_lexLt h

/-! Lemmas about dict update/lookup and the file-load loop. -/

theorem getVal_upsert_self {α : Type} (k : String) (v : α) (l : List (String × α)) :
    getVal k (upsert k v l) = some v := by
  induction l with
  | nil => simp [upsert, getVal]
  | cons p rest ih =>
    obtain ⟨k', v'⟩ := p
    by_cases h : k' = k
    · simp [upsert, h, getVal]
    · simp [upsert, h, getVal, ih]

theorem getVal_upsert_ne {α : Type} {k t : String} (v : α) (l : List (String × α))
    (h : t ≠ k) : getVal t (upsert k v l) = getVal t l := by
  induction l with
  | nil => simp [upsert, getVal, Ne.symm h]
  | cons p rest ih =>
    obtain ⟨k', v'⟩ := p
    by_cases hk : k' = k
    · subst hk
      simp [upsert, getVal, Ne.symm h]
    · simp only [upsert, hk, if_false]
      by_cases hk' : k' = t
      · simp [getVal, hk']
      · simp [getVal, hk', ih]

theorem mem_keys_upsert {α : Type} (k t : String) (v : α) (l : List (String × α)) :
    t ∈ (upsert k v l).map Prod.fst ↔ t = k ∨ t ∈ l.map Prod.fst := by
  induction l with
  | nil => simp [upsert]
  | cons p rest ih =>
    obtain ⟨k', v'⟩ := p
    by_cases h : k' = k
    · subst h
      simp [upsert]
    · simp only [upsert, h, if_false, List.map_cons, List.mem_cons, ih]
      tauto

theorem nodup_keys_upsert {α : Type} (k : String) (v : α) {l : List (String × α)}
    (h : (l.map Prod.fst).Nodup) : ((upsert k v l).map Prod.fst).Nodup := by
  induction l with
  | nil => simp [upsert]
  | cons p rest ih =>
    obtain ⟨k', v'⟩ := p
    simp only [List.map_cons, List.nodup_cons] at h
    by_cases hk : k' = k
    · subst hk
      simpa [upsert] using h
    · simp only [upsert, hk, if_false, List.map_cons, List.nodup_cons]
      refine ⟨?_, ih h.2⟩
      rw [mem_keys_upsert]
      rintro (rfl | hmem)
      · exact hk rfl
      · exact h.1 hmem

theorem getVal_isSome_of_mem_keys {α : Type} {t : String} {l : List (String × α)}
    (h : t ∈ l.map Prod.fst) : ∃ v, getVal t l = some v := by
  induction l with
  | nil => simp at h
  | cons p rest ih =>
    obtain ⟨k', v'⟩ := p
    by_cases hk : k' = t
    · exact ⟨v', by simp [getVal, hk]⟩
    · simp only [List.map_cons, List.mem_cons] at h
      rcases h with rfl | hmem
      · exact absurd rfl hk
      · simpa [getVal, hk] using ih hmem

theorem getVal_mem {α : Type} {t : String} {l : List (String × α)} {v : α}
    (h : getVal t l = some v) : (t, v) ∈ l := by
  induction l with
  | nil => simp [getVal] at h
  | cons p rest ih =>
    obtain ⟨k', v'⟩ := p
    by_cases hk : k' = t
    · subst hk
      have h' : v' = v := by simpa [getVal] using h
      subst h'
      exact List.mem_cons_self _ _
    · simp only [getVal, hk, if_false] at h
      exact List.mem_cons_of_mem _ (ih h)

theorem lastFileWith_none_iff {t : String} {l : List MFile} :
    lastFileWith t l = none ↔ ∀ f ∈ l, stemKey f ≠ t := by
  induction l with
  | nil => simp [lastFileWith]
  | cons f fs ih =>
    cases hl : lastFileWith t fs with
    | some g =>
      simp only [lastFileWith, hl]
      constructor
      · intro h; exact absurd h (by simp)
      · intro h
        exact absurd (ih.mpr fun x hx => h x (List.mem_cons_of_mem _ hx)) (by simp [hl])
    | none =>
      simp only [lastFileWith, hl]
      by_cases hf : stemKey f = t
      · simp only [hf, if_pos rfl]
        constructor
        · intro h; exact absurd h (by simp)
        · intro h; exact absurd hf (h f (List.mem_cons_self _ _))
      · simp only [hf, if_neg hf]
        constructor
        · intro _ x hx
          rcases List.mem_cons.mp hx with rfl | hx'
          · exact hf
          · exact ih.mp hl x hx'
        · intro _; rfl

theorem lastFileWith_spec {t : String} {l : List MFile} {g : MFile}
    (h : lastFileWith t l = some g) :
    stemKey g = t ∧ ∃ u v, l = u ++ g :: v ∧ ∀ x ∈ v, stemKey x ≠ t := by
  induction l with
  | nil => simp [lastFileWith] at h
  | cons f fs ih =>
    cases hl : lastFileWith t fs with
    | some g' =>
      rw [lastFileWith, hl] at h
      obtain rfl : g' = g := by simpa using h
      obtain ⟨hkey, u, v, rfl, hv⟩ := ih hl
      exact ⟨hkey, f :: u, v, rfl, hv⟩
    | none =>
      rw [lastFileWith, hl] at h
      by_cases hf : stemKey f = t
      · rw [if_pos hf] at h
        obtain rfl : f = g := by simpa using h
        exact ⟨hf, [], fs, rfl, lastFileWith_none_iff.mp hl⟩
      · rw [if_neg hf] at h
        simp at h

/-- Where each surviving `series_map` / `file_meta` entry comes from: the last
file (in processing order) whose uppercased stem equals the key. -/
theorem loadFiles_getVal {sortFn : SortFn} :
    ∀ (fs : List MFile) (acc : List (String × Series) × List (String × FileMeta))
      (smap : List (String × Series)) (fmeta : List (String × FileMeta)),
      loadFiles sortFn acc fs = .ok (smap, fmeta) → ∀ t : String,
      (∃ f, lastFileWith t fs = some f ∧
        ∃ s, clean_single_csv_fixed_format sortFn f.recs = .ok s ∧
          getVal t smap = some s ∧ getVal t fmeta = some (mkMeta f s)) ∨
      (lastFileWith t fs = none ∧
        getVal t smap = getVal t acc.1 ∧ getVal t fmeta = getVal t acc.2) := by
  intro fs
  induction fs with
  | nil =>
    intro acc smap fmeta h t
    simp only [loadFiles, Except.ok.injEq] at h
    obtain rfl : acc = (smap, fmeta) := h
    right
    exact ⟨rfl, rfl, rfl⟩
  | cons f fs ih =>
    intro acc smap fmeta h t
    rw [loadFiles] at h
    cases hc : clean_single_csv_fixed_format sortFn f.recs with
    | error e => rw [hc] at h; simp at h
    | ok s =>
      rw [hc] at h
      rcases ih _ _ _ h t with ⟨g, hg, s', hcg, hsm, hfm⟩ | ⟨hnone, hsm, hfm⟩
      · left
        exact ⟨g, by rw [lastFileWith, hg], s', hcg, hsm, hfm⟩
      · by_cases hf : stemKey f = t
        · left
          refine ⟨f, by rw [lastFileWith, hnone, if_pos hf], s, hc, ?_, ?_⟩
          · rw [hsm]
            show getVal t (upsert (stemKey f) s acc.1) = some s
            rw [hf]
            exact getVal_upsert_self t s acc.1
          · rw [hfm]
            show getVal t (upsert (stemKey f) (mkMeta f s) acc.2) = some (mkMeta f s)
            rw [hf]
            exact getVal_upsert_self t (mkMeta f s) acc.2
        · right
          refine ⟨by rw [lastFileWith, hnone, if_neg hf], ?_, ?_⟩
          · rw [hsm]
            show getVal t (upsert (stemKey f) s acc.1) = getVal t acc.1
            exact getVal_upsert_ne s acc.1 fun hh => hf hh.symm
          · rw [hfm]
            show getVal t (upsert (stemKey f) (mkMeta f s) acc.2) = getVal t acc.2
            exact getVal_upsert_ne (mkMeta f s) acc.2 fun hh => hf hh.symm

/-- The keys of the loaded series map: keys already in the accumulator plus the
uppercased stems of the processed files. -/
theorem loadFiles_keys {sortFn : SortFn} :
    ∀ (fs : List MFile) (acc : List (String × Series) × List (String × FileMeta))
      (smap : List (String × Series)) (fmeta : List (String × FileMeta)),
      loadFiles sortFn acc fs = .ok (smap, fmeta) → ∀ t : String,
      t ∈ smap.map Prod.fst ↔ t ∈ acc.1.map Prod.fst ∨ ∃ f ∈ fs, stemKey f = t := by
  intro fs
  induction fs with
  | nil =>
    intro acc smap fmeta h t
    simp only [loadFiles, Except.ok.injEq] at h
    obtain rfl : acc = (smap, fmeta) := h
    simp
  | cons f fs ih =>
    intro acc smap fmeta h t
    rw [loadFiles] at h
    cases hc : clean_single_csv_fixed_format sortFn f.recs with
    | error e => rw [hc] at h; simp at h
    | ok s =>
      rw [hc] at h
      rw [ih _ _ _ h t]
      simp only [mem_keys_upsert]
      constructor
      · rintro ((rfl | hmem) | ⟨g, hg, hgt⟩)
        · exact Or.inr ⟨f, List.mem_cons_self _ _, rfl⟩
        · exact Or.inl hmem
        · exact Or.inr ⟨g, List.mem_cons_of_mem _ hg, hgt⟩
      · rintro (hmem | ⟨g, hg, hgt⟩)
        · exact Or.inl (Or.inr hmem)
        · rcases List.mem_cons.mp hg with rfl | hg'
          · exact Or.inl (Or.inl hgt.symm)
          · exact Or.inr ⟨g, hg', hgt⟩

theorem loadFiles_keys_nodup {sortFn : SortFn} :
    ∀ (fs : List MFile) (acc : List (String × Series) × List (String × FileMeta))
      (smap : List (String × Series)) (fmeta : List (String × FileMeta)),
      loadFiles sortFn acc fs = .ok (smap, fmeta) →
      (acc.1.map Prod.fst).Nodup → (smap.map Prod.fst).Nodup := by
  intro fs
  induction fs with
  | nil =>
    intro acc smap fmeta h hacc
    simp only [loadFiles, Except.ok.injEq] at h
    obtain rfl : acc = (smap, fmeta) := h
    exact hacc
  | cons f fs ih =>
    intro acc smap fmeta h hacc
    rw [loadFiles] at h
    cases hc : clean_single_csv_fixed_format sortFn f.recs with
    | error e => rw [hc] at h; simp at h
    | ok s =>
      rw [hc] at h
      exact ih _ _ _ h (nodup_keys_upsert _ _ hacc)

theorem loadFiles_ok_of_all_ok {sortFn : SortFn} :
    ∀ (fs : List MFile) (acc : List (String × Series) × List (String × FileMeta)),
      (∀ f ∈ fs, isOkE (clean_single_csv_fixed_format sortFn f.recs) = true) →
      ∃ smap fmeta, loadFiles sortFn acc fs = .ok (smap, fmeta) := by
  intro fs
  induction fs with
  | nil => intro acc _; exact ⟨acc.1, acc.2, rfl⟩
  | cons f fs ih =>
    intro acc hall
    have hf := hall f (List.mem_cons_self _ _)
    cases hc : clean_single_csv_fixed_format sortFn f.recs with
    | error e => rw [hc] at hf; simp [isOkE] at hf
    | ok s =>
      obtain ⟨smap, fmeta, hrest⟩ :=
        ih (upsert (stemKey f) s acc.1, upsert (stemKey f) (mkMeta f s) acc.2)
          (fun g hg => hall g (List.mem_cons_of_mem _ hg))
      exact ⟨smap, fmeta, by rw [loadFiles, hc]; exact hrest⟩

/-! Inversion of a successful `build_market` run. -/

theorem build_market_ok {sortFn : SortFn} {cfg : Config} {files : List MFile}
    {mkt : Market} (h : build_market sortFn cfg files = .ok mkt) :
    ∃ smap fmeta,
      loadFiles sortFn ([], []) (sortLe fileLe files) = .ok (smap, fmeta) ∧
      ∃ master,
        pick_master_ticker cfg.preferred_master (sortLe strLe (smap.map Prod.fst)) =
          .ok master ∧
        mkt = mkMarket cfg smap fmeta (sortLe strLe (smap.map Prod.fst)) master := by
  unfold build_market at h
  split at h
  · simp at h
  · split at h
    next e heq => simp at h
    next p heq =>
      split at h
      next e heq2 => simp at h
      next master heq2 =>
        simp only [Except.ok.injEq] at h
        exact ⟨p.1, p.2, heq, master, heq2, h.symm⟩

/-! Lemmas about the cleaning step. -/

theorem clean_ok_iff (sortFn : SortFn) (recs : List RawRec) :
    isOkE (clean_single_csv_fixed_format sortFn recs) = true ↔
      (∀ r ∈ recs, r.dateOk = true) ∧
      ∀ x ∈ dedupKeepLast (sortFn (datesParsed recs)), x.2.isNum = true := by
  unfold clean_single_csv_fixed_format
  cases hp : parseDates recs with
  | error e =>
    have hd := parseDates_ok_iff recs
    rw [hp] at hd
    simp only [isOkE_error, false_iff, Bool.false_eq_true] at hd ⊢
    intro hcon
    exact hd hcon.1
  | ok parsed =>
    have hd := parseDates_ok_iff recs
    rw [hp] at hd
    simp only [isOkE_ok, true_iff] at hd
    have hpe : parsed = datesParsed recs := parseDates_ok_eq hp
    subst hpe
    rw [parsePrices_ok_iff]
    exact ⟨fun h => ⟨hd, h⟩, fun h => h.2⟩

theorem clean_error_form {sortFn : SortFn} {recs : List RawRec} {e : BErr}
    (h : clean_single_csv_fixed_format sortFn recs = .error e) :
    ∃ s, e = .formatError s := by
  unfold clean_single_csv_fixed_format at h
  cases hp : parseDates recs with
  | error e' =>
    rw [hp] at h
    simp only [Except.error.injEq] at h
    exact h ▸ parseDates_error_form hp
  | ok parsed =>
    rw [hp] at h
    exact parsePrices_error_form h

theorem clean_ok_dates {sortFn : SortFn} {recs : List RawRec} {s : Series}
    (h : clean_single_csv_fixed_format sortFn recs = .ok s) :
    s.map Prod.fst = (dedupKeepLast (sortFn (datesParsed recs))).map Prod.fst := by
  unfold clean_single_csv_fixed_format at h
  cases hp : parseDates recs with
  | error e => rw [hp] at h; simp at h
  | ok parsed =>
    rw [hp] at h
    rw [parsePrices_map_fst h, parseDates_ok_eq hp]

/-- A cleaned series has strictly increasing dates, whatever tie order the
(possibly unstable) sort produced. -/
theorem clean_dates_strict {sortFn : SortFn} {recs : List RawRec} {s : Series}
    (h : clean_single_csv_fixed_format sortFn recs = .ok s)
    (hsort : (sortFn (datesParsed recs)).Pairwise (fun a b => a.1 ≤ b.1)) :
    (s.map Prod.fst).Pairwise (fun a b : Date => a < b) := by
  rw [clean_ok_dates h]
  have hle : (dedupKeepLast (sortFn (datesParsed recs))).Pairwise
      (fun a b => a.1 ≤ b.1) :=
    List.Pairwise.sublist (dedupKeepLast_sublist _) hsort
  have hne := dedupKeepLast_dates_nodup (sortFn (datesParsed recs))
  have hlt : (dedupKeepLast (sortFn (datesParsed recs))).Pairwise
      (fun a b => a.1 < b.1) :=
    (hle.and hne).imp fun hab => Date.lt_of_le_of_ne hab.1 hab.2
  rw [List.pairwise_map]
  exact hlt

/-! Lemmas about the month-end groupby keys. -/

theorem ymLe_total (a b : Nat × Nat) : ymLe a b = true ∨ ymLe b a = true := by
  simp only [ymLe, decide_eq_true_eq]
  omega

theorem ymLe_trans (a b c : Nat × Nat) (h₁ : ymLe a b = true)
    (h₂ : ymLe b c = true) : ymLe a c = true := by
  simp only [ymLe, decide_eq_true_eq] at *
  omega

theorem mem_ymKeys_iff {dates : List Date} {k : Nat × Nat} :
    k ∈ sortLe ymLe (dates.map ymKey).dedup ↔ ∃ dt ∈ dates, ymKey dt = k := by
  rw [sortLe_mem, List.mem_dedup, List.mem_map]

theorem ymKeys_nodup (dates : List Date) :
    (sortLe ymLe (dates.map ymKey).dedup).Nodup :=
  (sortLe_perm ymLe _).nodup_iff.mpr (List.nodup_dedup _)

theorem ymKeys_pairwise (dates : List Date) :
    (sortLe ymLe (dates.map ymKey).dedup).Pairwise (fun a b => ymLe a b = true) :=
  sortLe_pairwise ymLe_total ymLe_trans _

/-- A duplicate-free list filtered down to one of its members is that singleton. -/
theorem filter_eq_singleton_of_nodup {α : Type} [DecidableEq α] {l : List α}
    {a : α} (hn : l.Nodup) (ha : a ∈ l) :
    l.filter (fun x => decide (x = a)) = [a] := by
  induction l with
  | nil => simp at ha
  | cons x xs ih =>
    by_cases hax : x = a
    · rw [List.filter_cons_of_pos (by simp [hax])]
      have hnx := (List.nodup_cons.mp hn).1
      have hnil : xs.filter (fun y => decide (y = a)) = [] := by
        rw [List.filter_eq_nil_iff]
        intro y hy
        simp only [decide_eq_true_eq]
        intro hya
        rw [hya, ← hax] at hy
        exact hnx hy
      rw [hnil, hax]
    · have ha' : a ∈ xs := by
        rcases List.mem_cons.mp ha with heq | h'
        · exact absurd heq.symm hax
        · exact h'
      rw [List.filter_cons_of_neg (by simp [hax])]
      exact ih (List.nodup_cons.mp hn).2 ha'

/-! Lemmas about the lexicographically smallest string (`min` via a fold). -/

theorem strFoldMin_mem (x : String) (xs : List String) : strFoldMin x xs ∈ x :: xs := by
  unfold strFoldMin
  induction xs generalizing x with
  | nil => simp
  | cons y ys ih =>
    have hstep := ih (if strLt y x then y else x)
    have hcase : (if strLt y x then y else x) = x ∨ (if strLt y x then y else x) = y := by
      by_cases hlt : strLt y x = true <;> simp [hlt]
    simp only [List.foldl_cons]
    rcases List.mem_cons.mp hstep with heq | hmem
    · rcases hcase with h' | h' <;> rw [heq, h'] <;> simp
    · exact List.mem_cons_of_mem _ (List.mem_cons_of_mem _ hmem)

theorem strFoldMin_le (x : String) (xs : List String) :
    ∀ z ∈ x :: xs, strLe (strFoldMin x xs) z = true := by
  unfold strFoldMin
  induction xs generalizing x with
  | nil =>
    intro z hz
    simp only [List.mem_singleton] at hz
    exact hz ▸ strLe_refl z
  | cons y ys ih =>
    intro z hz
    have hstep : ∀ w ∈ (if strLt y x then y else x) :: ys,
        strLe (ys.foldl (fun a b => if strLt b a then b else a)
          (if strLt y x then y else x)) w = true := ih _
    have hx : strLe (if strLt y x then y else x) x = true := by
      by_cases hlt : strLt y x = true
      · simpa [hlt] using strLt_strLe hlt
      · simp [hlt, strLe_refl]
    have hy : strLe (if strLt y x then y else x) y = true := by
      by_cases hlt : strLt y x = true
      · simp [hlt, strLe_refl]
      · simpa [hlt] using strLe_of_not_strLt hlt
    have hself := hstep _ (List.mem_cons_self _ _)
    simp only [List.foldl_cons]
    rcases List.mem_cons.mp hz with rfl | hz'
    · exact strLe_trans hself hx
    rcases List.mem_cons.mp hz' with rfl | hz''
    · exact strLe_trans hself hy
    · exact hstep z (List.mem_cons_of_mem _ hz'')

theorem sortLe_strings_head_min {l : List String} {t : String} {rest : List String}
    (h : sortLe strLe l = t :: rest) : ∀ z ∈ l, strLe t z = true := by
  have hp := sortLe_pairwise strLe_total (fun a b c h1 h2 => strLe_trans h1 h2) l
  rw [h] at hp
  intro z hz
  have hz' : z ∈ t :: rest := by rw [← h]; exact sortLe_mem.mpr hz
  rcases List.mem_cons.mp hz' with rfl | hz''
  · exact strLe_refl z
  · exact (List.pairwise_cons.mp hp).1 z hz''

theorem sortLe_eq_nil_iff {α : Type} {le : α → α → Bool} {l : List α} :
    sortLe le l = [] ↔ l = [] := by
  constructor
  · intro h
    have := (sortLe_perm le l).length_eq
    rw [h] at this
    exact List.eq_nil_of_length_eq_zero this.symm
  · rintro rfl
    rfl

/-! Helper lemmas for matrix cell access and master selection. -/

theorem getD_map {α β : Type} (f : α → β) (l : List α) (i : Nat) (d : β) (da : α)
    (h : i < l.length) : (l.map f).getD i d = f (l.getD i da) := by
  induction l generalizing i with
  | nil => simp at h
  | cons x xs ih =>
    cases i with
    | zero => simp [List.getD_cons_zero]
    | succ n =>
      simp only [List.map_cons, List.getD_cons_succ]
      exact ih n (by simpa using h)

theorem mkMarket_tickers (cfg : Config) (smap : List (String × Series))
    (fmeta : List (String × FileMeta)) (tickers : List String) (master : String) :
    (mkMarket cfg smap fmeta tickers master).tickers = tickers := rfl

theorem mkMarket_master (cfg : Config) (smap : List (String × Series))
    (fmeta : List (String × FileMeta)) (tickers : List String) (master : String) :
    (mkMarket cfg smap fmeta tickers master).master = master := rfl

theorem mkMarket_masterDates (cfg : Config) (smap : List (String × Series))
    (fmeta : List (String × FileMeta)) (tickers : List String) (master : String) :
    (mkMarket cfg smap fmeta tickers master).masterDates =
      ((getVal master smap).getD []).map Prod.fst := rfl

theorem mkMarket_seriesMap (cfg : Config) (smap : List (String × Series))
    (fmeta : List (String × FileMeta)) (tickers : List String) (master : String) :
    (mkMarket cfg smap fmeta tickers master).seriesMap = smap := rfl

theorem mkMarket_matrix (cfg : Config) (smap : List (String × Series))
    (fmeta : List (String × FileMeta)) (tickers : List String) (master : String) :
    (mkMarket cfg smap fmeta tickers master).matrix =
      (((getVal master smap).getD []).map Prod.fst).map fun dt =>
        tickers.map fun t => lookupDate ((getVal t smap).getD []) dt := rfl

theorem mkMarket_monthEnds (cfg : Config) (smap : List (String × Series))
    (fmeta : List (String × FileMeta)) (tickers : List String) (master : String) :
    (mkMarket cfg smap fmeta tickers master).monthEnds =
      monthEnds (((getVal master smap).getD []).map Prod.fst) := rfl

theorem mkMarket_health (cfg : Config) (smap : List (String × Series))
    (fmeta : List (String × FileMeta)) (tickers : List String) (master : String) :
    (mkMarket cfg smap fmeta tickers master).health =
      sortLe healthLe (tickers.map fun t =>
        mkHealth smap (((getVal master smap).getD []).map Prod.fst) t) := rfl

theorem mkMarket_manifest_files (cfg : Config) (smap : List (String × Series))
    (fmeta : List (String × FileMeta)) (tickers : List String) (master : String) :
    (mkMarket cfg smap fmeta tickers master).manifest.files = fmeta := rfl

theorem pick_master_mem {p avail : List String} {t : String}
    (h : pick_master_ticker p avail = .ok t) : t ∈ avail := by
  unfold pick_master_ticker at h
  cases hf : p.find? (fun x => avail.contains x) with
  | some u =>
    rw [hf] at h
    simp only [Except.ok.injEq] at h
    subst h
    simpa using List.find?_some hf
  | none =>
    rw [hf] at h
    cases hs : sortLe strLe avail with
    | nil => rw [hs] at h; simp at h
    | cons u rest =>
      rw [hs] at h
      simp only [Except.ok.injEq] at h
      subst h
      exact sortLe_mem.mp (hs ▸ List.mem_cons_self _ _)

theorem pick_master_ok_of_nonempty {p avail : List String} (h : avail ≠ []) :
    ∃ t, pick_master_ticker p avail = .ok t := by
  unfold pick_master_ticker
  cases hf : p.find? (fun x => avail.contains x) with
  | some u => exact ⟨u, rfl⟩
  | none =>
    cases hs : sortLe strLe avail with
    | nil => exact absurd (sortLe_eq_nil_iff.mp hs) h
    | cons u rest => exact ⟨u, rfl⟩

/-- The cleaned series each built ticker holds comes from a successful clean of
the last path-sorted input file bearing that symbol. -/
theorem build_ticker_series {sortFn : SortFn} {cfg : Config} {files : List MFile}
    {mkt : Market} (h : build_market sortFn cfg files = .ok mkt) {t : String}
    (ht : t ∈ mkt.tickers) :
    ∃ f ∈ files, stemKey f = t ∧
      clean_single_csv_fixed_format sortFn f.recs = .ok (seriesOf mkt t) := by
  obtain ⟨smap, fmeta, hl, master, hp, rfl⟩ := build_market_ok h
  rw [mkMarket_tickers] at ht
  have hkey : t ∈ smap.map Prod.fst := sortLe_mem.mp ht
  rcases loadFiles_getVal _ _ _ _ hl t with
    ⟨f, hf, s, hcs, hsm, _⟩ | ⟨_, hsm, _⟩
  · obtain ⟨hfk, u, v, hdec, _⟩ := lastFileWith_spec hf
    have hfmem : f ∈ sortLe fileLe files := by
      rw [hdec]
      exact List.mem_append.mpr (Or.inr (List.mem_cons_self _ _))
    refine ⟨f, sortLe_mem.mp hfmem, hfk, ?_⟩
    rw [show seriesOf (mkMarket cfg smap fmeta (sortLe strLe (smap.map Prod.fst)) master) t
        = (getVal t smap).getD [] from rfl]
    rw [hsm]
    exact hcs
  · obtain ⟨v, hv⟩ := getVal_isSome_of_mem_keys hkey
    rw [hv] at hsm
    simp [getVal] at hsm

/-- The concrete two-file build evaluates to the fixture market `mkt0`. -/
theorem build0_eq : build_market idSort cfg0 files0 = .ok mkt0 := by decide

/-! Claim theorems. -/

/-- C1 (code evaluated at the failing input): on a 17-row file whose first 16
records share one date, the row order that pandas' default (numpy introsort)
sort produces — `npSorted17`, a legitimate date-ordered permutation of the
parsed rows — makes `clean_single_csv_fixed_format` keep the value of file row
7 for the duplicated date, while the record that appeared last in original
file order carries value 15.  The claim "the kept value equals the last record
in pre-sort file order" therefore fails on the code, which relies on an
unstable sort. -/
theorem C1_unstable_sort_breaks_keep_last :
    SortsBy npSorted17 (datesParsed recs17) ∧
    clean_single_csv_fixed_format npSortFn recs17 =
      .ok [(dJan2, 7), (dJan3, 100)] ∧
    lastValFor dJan2 recs17 = some (.num 15) ∧
    PriceTok.num 7 ≠ PriceTok.num 15 := by
  refine ⟨⟨?_, ?_⟩, ?_, ?_, ?_⟩
  · decide
  · decide
  · rfl
  · decide
  · decide

/-- C5: master selection on a nonempty available set returns the first
preference-list symbol present in the set, else the lexicographically smallest
available symbol (`specPickMaster`, written from the spec), deterministically
and without side effects. -/
theorem C5_pick_master_first_preferred_else_min
    (preferred available : List String) (h : available ≠ []) :
    ∃ t, pick_master_ticker preferred available = .ok t ∧
      specPickMaster preferred available = some t := by
  unfold pick_master_ticker specPickMaster
  cases hf : preferred.find? (fun t => available.contains t) with
  | some t => exact ⟨t, rfl, rfl⟩
  | none =>
    cases hs : sortLe strLe available with
    | nil => exact absurd (sortLe_eq_nil_iff.mp hs) h
    | cons t rest =>
      cases havail : available with
      | nil => exact absurd havail h
      | cons x xs =>
        refine ⟨t, rfl, ?_⟩
        have hmem_t : t ∈ available :=
          sortLe_mem.mp (hs ▸ List.mem_cons_self _ _)
        have h1 : strLe t (strFoldMin x xs) = true := by
          have hmin_mem : strFoldMin x xs ∈ available := by
            rw [havail]; exact strFoldMin_mem x xs
          have := sortLe_strings_head_min hs
          rw [havail] at this
          exact this _ (havail ▸ hmin_mem)
        have h2 : strLe (strFoldMin x xs) t = true :=
          strFoldMin_le x xs t (havail ▸ hmem_t)
        show some (strFoldMin x xs) = some t
        rw [strLe_antisymm h2 h1]

/-- C5 witness: with preference list `["QQQ"]` and available set
`{"B", "A"}`, selection succeeds and returns the lexicographic minimum "A". -/
theorem C5_witness :
    ∃ t, pick_master_ticker ["QQQ"] ["B", "A"] = .ok t ∧
      specPickMaster ["QQQ"] ["B", "A"] = some t :=
  C5_pick_master_first_preferred_else_min ["QQQ"] ["B", "A"] (by decide)

/-- C6 counterexample: on an empty available set the selection raises
`IndexError` from `sorted(list(available))[0]`; it is not a `NoDataError` and
there is no independent empty-set guard in the code. -/
theorem C6_counterexample :
    pick_master_ticker ["QQQ", "SPY"] [] = .error .indexError ∧
    pick_master_ticker ["QQQ", "SPY"] [] ≠ .error .noData := by
  constructor
  · rfl
  · decide

/-- C6 (amended): for every preference list, selection over an empty available
set fails — but with the unguarded `IndexError` of indexing into the empty
sorted list, not with a dedicated `NoDataError` guard. -/
theorem C6_amended_empty_set_raises_index_error (preferred : List String) :
    pick_master_ticker preferred [] = .error .indexError := by
  unfold pick_master_ticker
  have hf : preferred.find? (fun t => ([] : List String).contains t) = none := by
    rw [List.find?_eq_none]
    intro t _
    simp
  rw [hf]
  rfl

/-- C7 counterexample: a file with an unparseable price token on a record that
a later same-date record shadows.  All date tokens parse, one price token does
not, yet cleaning succeeds — because `pd.to_numeric` runs only after
`drop_duplicates` has discarded the offending row.  This refutes the claimed
"fails if and only if some price token cannot be parsed". -/
theorem C7_counterexample :
    (∃ r ∈ recsBadDup, r.priceTok.isNum = false) ∧
    (∀ r ∈ recsBadDup, r.dateOk = true) ∧
    SortsBy (idSort (datesParsed recsBadDup)) (datesParsed recsBadDup) ∧
    clean_single_csv_fixed_format idSort recsBadDup = .ok [(dJan2, 5)] := by
  refine ⟨?_, ?_, ⟨?_, ?_⟩, ?_⟩
  · decide
  · decide
  · decide
  · decide
  · rfl

/-- C7 (amended): after the fixed header skip, cleaning fails iff some date
token cannot be parsed or some price token *that survives de-duplication*
cannot be parsed; every failure is a `FormatError`.  (On success all values
are numbers by construction of the numeric parse.) -/
theorem C7_amended_format_error_characterization (sortFn : SortFn)
    (recs : List RawRec) :
    (isOkE (clean_single_csv_fixed_format sortFn recs) = true ↔
      (∀ r ∈ recs, r.dateOk = true) ∧
      ∀ x ∈ dedupKeepLast (sortFn (datesParsed recs)), x.2.isNum = true) ∧
    (isOkE (clean_single_csv_fixed_format sortFn recs) = true ∨
      ∃ s, clean_single_csv_fixed_format sortFn recs = .error (.formatError s)) := by
  refine ⟨clean_ok_iff sortFn recs, ?_⟩
  cases hc : clean_single_csv_fixed_format sortFn recs with
  | ok s => left; rfl
  | error e =>
    right
    obtain ⟨s, rfl⟩ := clean_error_form hc
    exact ⟨s, rfl⟩

/-- C9: the build is a pure function of the input files alone — two runs inside
environments that agree on the files (and may disagree on the wall clock)
produce identical results, and in particular identical Matrix content, Calendar
and Manifest.  The modelled Manifest carries no wall-clock or timestamp field,
which this clock independence makes precise. -/
theorem C9_determinism (sortFn : SortFn) (cfg : Config) (e₁ e₂ : Env)
    (h : e₁.files = e₂.files) :
    buildEnv sortFn cfg e₁ = buildEnv sortFn cfg e₂ ∧
    (∀ m₁ m₂, buildEnv sortFn cfg e₁ = .ok m₁ → buildEnv sortFn cfg e₂ = .ok m₂ →
      m₁.matrix = m₂.matrix ∧ m₁.masterDates = m₂.masterDates ∧
      m₁.manifest = m₂.manifest) := by
  have heq : buildEnv sortFn cfg e₁ = buildEnv sortFn cfg e₂ := by
    unfold buildEnv
    rw [h]
  refine ⟨heq, fun m₁ m₂ h₁ h₂ => ?_⟩
  have hm : m₁ = m₂ := by
    rw [h₁, h₂] at heq
    simpa using heq
  subst hm
  exact ⟨rfl, rfl, rfl⟩

/-- C9 witness: two environments over the same two-file input, one at clock 0
and one at clock 999, build the same result. -/
theorem C9_witness :
    buildEnv idSort cfg0 ⟨files0, 0⟩ = buildEnv idSort cfg0 ⟨files0, 999⟩ :=
  (C9_determinism idSort cfg0 ⟨files0, 0⟩ ⟨files0, 999⟩ rfl).1

/-- C2: every matrix cell equals the reindex lookup of the corresponding
cleaned series at the corresponding master date — in particular the cell is the
absent marker iff the series has no observation on that exact date, and a
present cell always carries the series' own value (no interpolation,
carry-forward or fill). -/
theorem C2_absence_invariant {sortFn : SortFn} {cfg : Config} {files : List MFile}
    {mkt : Market} (h : build_market sortFn cfg files = .ok mkt)
    (i j : Nat) (hi : i < mkt.masterDates.length) (hj : j < mkt.tickers.length) :
    ((mkt.matrix.getD i []).getD j none =
      lookupDate (seriesOf mkt (mkt.tickers.getD j ""))
        (mkt.masterDates.getD i ⟨0, 0, 0⟩)) ∧
    (((mkt.matrix.getD i []).getD j none = none) ↔
      lookupDate (seriesOf mkt (mkt.tickers.getD j ""))
        (mkt.masterDates.getD i ⟨0, 0, 0⟩) = none) := by
  obtain ⟨smap, fmeta, hl, master, hp, rfl⟩ := build_market_ok h
  rw [mkMarket_masterDates] at hi
  rw [mkMarket_tickers] at hj
  have hmain :
      ((mkMarket cfg smap fmeta (sortLe strLe (smap.map Prod.fst)) master).matrix.getD
          i []).getD j none =
        lookupDate
          ((getVal ((sortLe strLe (smap.map Prod.fst)).getD j "") smap).getD [])
          ((((getVal master smap).getD []).map Prod.fst).getD i ⟨0, 0, 0⟩) := by
    rw [mkMarket_matrix]
    rw [getD_map (fun dt => (sortLe strLe (smap.map Prod.fst)).map fun t =>
      lookupDate ((getVal t smap).getD []) dt) _ i [] ⟨0, 0, 0⟩ hi]
    exact getD_map (fun t => lookupDate ((getVal t smap).getD []) _) _ j none "" hj
  refine ⟨hmain, ?_⟩
  rw [hmain]
  exact Iff.rfl

/-- C2 witness: in the two-file fixture market, the cell of column "Z" at the
second master date (a date on which Z has no observation) equals the series
lookup there, and is absent exactly because the lookup is. -/
theorem C2_witness :
    ((mkt0.matrix.getD 1 []).getD 1 none =
      lookupDate (seriesOf mkt0 (mkt0.tickers.getD 1 ""))
        (mkt0.masterDates.getD 1 ⟨0, 0, 0⟩)) ∧
    (((mkt0.matrix.getD 1 []).getD 1 none = none) ↔
      lookupDate (seriesOf mkt0 (mkt0.tickers.getD 1 ""))
        (mkt0.masterDates.getD 1 ⟨0, 0, 0⟩) = none) :=
  C2_absence_invariant build0_eq 1 1 (by decide) (by decide)

/-- C8: every ticker has a health row whose staleness lag is exactly the master
calendar's maximum date minus the ticker's own maximum date in whole days — an
integer that is not clamped, so it is negative whenever the ticker's last date
exceeds the master's — and the master's own row reports lag 0. -/
theorem C8_staleness_lag {sortFn : SortFn} {cfg : Config} {files : List MFile}
    {mkt : Market} (h : build_market sortFn cfg files = .ok mkt) :
    (∀ t ∈ mkt.tickers, ∃ r ∈ mkt.health, r.ticker = t ∧
      r.lag = daysFromCivil (dmaxL mkt.masterDates) -
        daysFromCivil (dmaxL ((seriesOf mkt t).map Prod.fst))) ∧
    (∀ r ∈ mkt.health, r.ticker = mkt.master → r.lag = 0) := by
  obtain ⟨smap, fmeta, hl, master, hp, rfl⟩ := build_market_ok h
  simp only [mkMarket_tickers, mkMarket_health, mkMarket_masterDates,
    mkMarket_master, seriesOf, mkMarket_seriesMap]
  constructor
  · intro t ht
    refine ⟨mkHealth smap (((getVal master smap).getD []).map Prod.fst) t,
      sortLe_mem.mpr (List.mem_map_of_mem _ ht), rfl, rfl⟩
  · intro r hr hticker
    have hr' : r ∈ (sortLe strLe (smap.map Prod.fst)).map
        (mkHealth smap (((getVal master smap).getD []).map Prod.fst)) :=
      sortLe_mem.mp hr
    obtain ⟨t, ht, rfl⟩ := List.mem_map.mp hr'
    have hteq : t = master := hticker
    subst hteq
    exact sub_self _

/-- C8 witness: in the fixture market, master "M" (last date 2020-01-06) has a
health row with lag 0, while "Z" (last date 2020-01-08, two days past the
master's) gets lag -2 — the negative value is preserved, not clamped. -/
theorem C8_witness :
    (∃ r ∈ mkt0.health, r.ticker = "Z" ∧
      r.lag = daysFromCivil (dmaxL mkt0.masterDates) -
        daysFromCivil (dmaxL ((seriesOf mkt0 "Z").map Prod.fst))) ∧
    (daysFromCivil (dmaxL mkt0.masterDates) -
      daysFromCivil (dmaxL ((seriesOf mkt0 "Z").map Prod.fst)) = -2) ∧
    (∀ r ∈ mkt0.health, r.ticker = mkt0.master → r.lag = 0) := by
  refine ⟨(C8_staleness_lag build0_eq).1 "Z" (by decide), by decide, ?_⟩
  exact (C8_staleness_lag build0_eq).2

/-- Per-(year, month) shape of the month-end extraction on any date list. -/
theorem monthEnds_spec (dates : List Date) (y m : Nat)
    (hpres : ∃ dt ∈ dates, dt.y = y ∧ dt.m = m) :
    ∃ D, (monthEnds dates).filter (fun e => decide (e.1 = y ∧ e.2.1 = m)) =
        [(y, m, D)] ∧
      D ∈ dates ∧ D.y = y ∧ D.m = m ∧
      ∀ dt ∈ dates, dt.y = y → dt.m = m → dt ≤ D := by
  obtain ⟨d0, hd0, hy0, hm0⟩ := hpres
  have hk : (y, m) ∈ sortLe ymLe (dates.map ymKey).dedup :=
    mem_ymKeys_iff.mpr ⟨d0, hd0, by simp [ymKey, hy0, hm0]⟩
  have hmem_filter : d0 ∈ dates.filter (fun dt => decide (ymKey dt = (y, m))) :=
    List.mem_filter.mpr ⟨hd0, by simp [ymKey, hy0, hm0]⟩
  have hD_mem_filter :
      dmaxL (dates.filter fun dt => decide (ymKey dt = (y, m))) ∈
        dates.filter (fun dt => decide (ymKey dt = (y, m))) :=
    dmaxL_mem (List.ne_nil_of_mem hmem_filter)
  have hD := List.mem_filter.mp hD_mem_filter
  have hDkey : ymKey (dmaxL (dates.filter fun dt => decide (ymKey dt = (y, m)))) =
      (y, m) := by simpa using hD.2
  refine ⟨dmaxL (dates.filter fun dt => decide (ymKey dt = (y, m))), ?_, hD.1,
    ?_, ?_, ?_⟩
  · unfold monthEnds
    rw [List.filter_map]
    have hcongr :
        ((sortLe ymLe (dates.map ymKey).dedup).filter
          ((fun e : Nat × Nat × Date => decide (e.1 = y ∧ e.2.1 = m)) ∘
            (fun k => (k.1, k.2, dmaxL (dates.filter fun dt => decide (ymKey dt = k)))))) =
        (sortLe ymLe (dates.map ymKey).dedup).filter
          (fun k => decide (k = (y, m))) := by
      refine List.filter_congr ?_
      intro k _
      simp only [Function.comp]
      rw [decide_eq_decide]
      constructor
      · rintro ⟨h1, h2⟩
        exact Prod.ext h1 h2
      · rintro rfl
        exact ⟨rfl, rfl⟩
    rw [hcongr, filter_eq_singleton_of_nodup (ymKeys_nodup dates) hk, List.map_singleton]
  · have := congrArg Prod.fst hDkey
    simpa [ymKey] using this
  · have := congrArg Prod.snd hDkey
    simpa [ymKey] using this
  · intro dt hdt hy hm
    exact le_dmaxL dt (List.mem_filter.mpr ⟨hdt, by simp [ymKey, hy, hm]⟩)

/-- The month-end triples come out in strictly increasing date order. -/
theorem monthEnds_chrono (dates : List Date) :
    (monthEnds dates).Pairwise (fun e₁ e₂ => e₁.2.2 < e₂.2.2) := by
  unfold monthEnds
  rw [List.pairwise_map]
  have hpw := (ymKeys_pairwise dates).and (ymKeys_nodup dates)
  refine List.Pairwise.imp_of_mem ?_ hpw
  intro k₁ k₂ hk₁ hk₂ hand
  obtain ⟨hle, hne⟩ := hand
  obtain ⟨a₁, b₁⟩ := k₁
  obtain ⟨a₂, b₂⟩ := k₂
  have hlt : a₁ < a₂ ∨ (a₁ = a₂ ∧ b₁ < b₂) := by
    simp only [ymLe, decide_eq_true_eq] at hle
    simp only [ne_eq, Prod.mk.injEq, not_and] at hne
    rcases Nat.lt_or_ge a₁ a₂ with h | h
    · exact Or.inl h
    · right
      constructor
      · omega
      · have ha : a₁ = a₂ := by omega
        have hb : b₁ ≤ b₂ := by omega
        have : b₁ ≠ b₂ := fun hb' => hne ha hb'
        omega
  obtain ⟨d₁, hd₁, hkey₁⟩ := mem_ymKeys_iff.mp hk₁
  obtain ⟨d₂, hd₂, hkey₂⟩ := mem_ymKeys_iff.mp hk₂
  have hm₁ : dmaxL (dates.filter fun dt => decide (ymKey dt = (a₁, b₁))) ∈
      dates.filter (fun dt => decide (ymKey dt = (a₁, b₁))) :=
    dmaxL_mem (List.ne_nil_of_mem (List.mem_filter.mpr ⟨hd₁, by simp [hkey₁]⟩))
  have hm₂ : dmaxL (dates.filter fun dt => decide (ymKey dt = (a₂, b₂))) ∈
      dates.filter (fun dt => decide (ymKey dt = (a₂, b₂))) :=
    dmaxL_mem (List.ne_nil_of_mem (List.mem_filter.mpr ⟨hd₂, by simp [hkey₂]⟩))
  have hk₁' : ymKey (dmaxL (dates.filter fun dt => decide (ymKey dt = (a₁, b₁)))) =
      (a₁, b₁) := by simpa using (List.mem_filter.mp hm₁).2
  have hk₂' : ymKey (dmaxL (dates.filter fun dt => decide (ymKey dt = (a₂, b₂)))) =
      (a₂, b₂) := by simpa using (List.mem_filter.mp hm₂).2
  show dmaxL (dates.filter fun dt => decide (ymKey dt = (a₁, b₁))) <
    dmaxL (dates.filter fun dt => decide (ymKey dt = (a₂, b₂)))
  rw [Date.lt_def]
  obtain ⟨hy₁, hb₁⟩ := Prod.ext_iff.mp hk₁'
  obtain ⟨hy₂, hb₂⟩ := Prod.ext_iff.mp hk₂'
  simp only [ymKey] at hy₁ hb₁ hy₂ hb₂ ⊢
  omega

/-- C3: the matrix has one row per master calendar date; the row index is the
master's cleaned date sequence, strictly chronological (each date exactly
once); every row has one cell per ticker; and the columns are exactly the
loaded instrument symbols, duplicate-free in lexicographic order. -/
theorem C3_calendar_completeness {sortFn : SortFn} {cfg : Config}
    {files : List MFile} {mkt : Market}
    (h : build_market sortFn cfg files = .ok mkt)
    (hsorts : ∀ f ∈ files, SortsBy (sortFn (datesParsed f.recs)) (datesParsed f.recs)) :
    mkt.matrix.length = mkt.masterDates.length ∧
    mkt.masterDates = (seriesOf mkt mkt.master).map Prod.fst ∧
    mkt.masterDates.length = (seriesOf mkt mkt.master).length ∧
    mkt.masterDates.Pairwise (fun a b => a < b) ∧
    (∀ row ∈ mkt.matrix, row.length = mkt.tickers.length) ∧
    mkt.tickers.Pairwise (fun a b => strLe a b = true) ∧
    mkt.tickers.Nodup ∧
    (∀ t, t ∈ mkt.tickers ↔ ∃ f ∈ files, stemKey f = t) := by
  have hmaster_mem : mkt.master ∈ mkt.tickers := by
    obtain ⟨smap, fmeta, hl, master, hp, rfl⟩ := build_market_ok h
    rw [mkMarket_tickers, mkMarket_master]
    exact pick_master_mem hp
  have hstrict : mkt.masterDates.Pairwise (fun a b => a < b) := by
    obtain ⟨f, hfmem, hfkey, hclean⟩ := build_ticker_series h hmaster_mem
    have := clean_dates_strict hclean (hsorts f hfmem).2
    obtain ⟨smap, fmeta, hl, master, hp, rfl⟩ := build_market_ok h
    exact this
  obtain ⟨smap, fmeta, hl, master, hp, rfl⟩ := build_market_ok h
  refine ⟨?_, rfl, ?_, hstrict, ?_, ?_, ?_, ?_⟩
  · rw [mkMarket_matrix, mkMarket_masterDates, List.length_map]
  · rw [mkMarket_masterDates, List.length_map]
    rfl
  · intro row hrow
    rw [mkMarket_matrix] at hrow
    obtain ⟨dt, _, rfl⟩ := List.mem_map.mp hrow
    rw [mkMarket_tickers, List.length_map]
  · rw [mkMarket_tickers]
    exact sortLe_pairwise strLe_total (fun a b c h1 h2 => strLe_trans h1 h2) _
  · rw [mkMarket_tickers]
    exact (sortLe_perm _ _).nodup_iff.mpr
      (loadFiles_keys_nodup _ _ _ _ hl (by simp))
  · intro t
    rw [mkMarket_tickers, sortLe_mem, loadFiles_keys _ _ _ _ hl t]
    simp only [List.map_nil, List.not_mem_nil, false_or]
    constructor
    · rintro ⟨f, hf, hft⟩
      exact ⟨f, sortLe_mem.mp hf, hft⟩
    · rintro ⟨f, hf, hft⟩
      exact ⟨f, sortLe_mem.mpr hf, hft⟩

/-- C3 witness: on the two-file fixture the matrix is 3 × 2, the master index
is the strictly increasing three-date calendar of "M", and the columns are
exactly ["M", "Z"]. -/
theorem C3_witness :
    mkt0.matrix.length = mkt0.masterDates.length ∧
    mkt0.masterDates = (seriesOf mkt0 mkt0.master).map Prod.fst ∧
    mkt0.masterDates.length = (seriesOf mkt0 mkt0.master).length ∧
    mkt0.masterDates.Pairwise (fun a b => a < b) ∧
    (∀ row ∈ mkt0.matrix, row.length = mkt0.tickers.length) ∧
    mkt0.tickers.Pairwise (fun a b => strLe a b = true) ∧
    mkt0.tickers.Nodup ∧
    (∀ t, t ∈ mkt0.tickers ↔ ∃ f ∈ files0, stemKey f = t) :=
  C3_calendar_completeness build0_eq (by decide)

/-- C4: for every (year, month) present among the master dates, the month-end
output contains exactly one triple with that key; its date lies in the master
calendar within that month and is the maximum such date; and the triples are
emitted in master-calendar chronological order. -/
theorem C4_month_end_extraction {sortFn : SortFn} {cfg : Config}
    {files : List MFile} {mkt : Market}
    (h : build_market sortFn cfg files = .ok mkt) (y m : Nat)
    (hpres : ∃ dt ∈ mkt.masterDates, dt.y = y ∧ dt.m = m) :
    (∃ D, mkt.monthEnds.filter (fun e => decide (e.1 = y ∧ e.2.1 = m)) =
        [(y, m, D)] ∧
      D ∈ mkt.masterDates ∧ D.y = y ∧ D.m = m ∧
      ∀ dt ∈ mkt.masterDates, dt.y = y → dt.m = m → dt ≤ D) ∧
    mkt.monthEnds.Pairwise (fun e₁ e₂ => e₁.2.2 < e₂.2.2) := by
  obtain ⟨smap, fmeta, hl, master, hp, rfl⟩ := build_market_ok h
  rw [mkMarket_masterDates] at hpres ⊢
  rw [mkMarket_monthEnds]
  exact ⟨monthEnds_spec _ y m hpres, monthEnds_chrono _⟩

/-- C4 witness: January 2020 occurs in the fixture master calendar; the single
January entry carries 2020-01-06 (the true last trading day, not the calendar
month end), and the output is chronologically ordered. -/
theorem C4_witness :
    (∃ D, mkt0.monthEnds.filter (fun e => decide (e.1 = 2020 ∧ e.2.1 = 1)) =
        [(2020, 1, D)] ∧
      D ∈ mkt0.masterDates ∧ D.y = 2020 ∧ D.m = 1 ∧
      ∀ dt ∈ mkt0.masterDates, dt.y = 2020 → dt.m = 1 → dt ≤ D) ∧
    mkt0.monthEnds.Pairwise (fun e₁ e₂ => e₁.2.2 < e₂.2.2) :=
  C4_month_end_extraction build0_eq 2020 1 ⟨dJan2, by decide, by decide, by decide⟩

/-- A successful load plus a successful pick determine the build result. -/
theorem build_market_eq_of {sortFn : SortFn} {cfg : Config} {files : List MFile}
    {smap : List (String × Series)} {fmeta : List (String × FileMeta)}
    {master : String} (hne : files ≠ [])
    (hl : loadFiles sortFn ([], []) (sortLe fileLe files) = .ok (smap, fmeta))
    (hp : pick_master_ticker cfg.preferred_master (sortLe strLe (smap.map Prod.fst)) =
      .ok master) :
    build_market sortFn cfg files =
      .ok (mkMarket cfg smap fmeta (sortLe strLe (smap.map Prod.fst)) master) := by
  have hempty : ¬ (files.isEmpty = true) := by
    cases files with
    | nil => exact absurd rfl hne
    | cons a l => simp
  unfold build_market
  rw [if_neg hempty]
  split
  next e heq => rw [hl] at heq; exact absurd heq (by simp)
  next p heq =>
    rw [hl] at heq
    have hpp : p = (smap, fmeta) := by simpa using heq.symm
    subst hpp
    split
    next e heq2 =>
      have heq2' : pick_master_ticker cfg.preferred_master
          (sortLe strLe (smap.map Prod.fst)) = Except.error e := heq2
      rw [hp] at heq2'
      exact absurd heq2' (by simp)
    next master' heq2 =>
      have heq2' : pick_master_ticker cfg.preferred_master
          (sortLe strLe (smap.map Prod.fst)) = Except.ok master' := heq2
      rw [hp] at heq2'
      have hmm : master = master' := by simpa using heq2'
      subst hmm
      rfl

/-- C10: when two input files' stems differ only in letter case, the build does
not fail; the symbol's series and file metadata are those cleaned from the file
sorted last by path (silently overwriting the earlier file's), and the matrix
and manifest carry exactly one column/entry for the collided symbol. -/
theorem C10_case_collision_last_file_wins {sortFn : SortFn} {cfg : Config}
    {files : List MFile} {f₂ : MFile} {t : String}
    (h₂ : f₂ ∈ files) (hk₂ : stemKey f₂ = t)
    (hlast : ∀ f ∈ files, stemKey f = t → f = f₂ ∨ strLt f.path f₂.path = true)
    (hok : ∀ f ∈ files, isOkE (clean_single_csv_fixed_format sortFn f.recs) = true) :
    ∃ mkt, build_market sortFn cfg files = .ok mkt ∧
      ∃ s, clean_single_csv_fixed_format sortFn f₂.recs = .ok s ∧
        getVal t mkt.seriesMap = some s ∧
        getVal t mkt.manifest.files = some (mkMeta f₂ s) ∧
        mkt.tickers.count t = 1 := by
  have hne : files ≠ [] := List.ne_nil_of_mem h₂
  obtain ⟨smap, fmeta, hl⟩ :=
    loadFiles_ok_of_all_ok (sortLe fileLe files) ([], [])
      (fun f hf => hok f (sortLe_mem.mp hf))
  have htk : t ∈ smap.map Prod.fst :=
    (loadFiles_keys _ _ _ _ hl t).mpr (Or.inr ⟨f₂, sortLe_mem.mpr h₂, hk₂⟩)
  have htick : t ∈ sortLe strLe (smap.map Prod.fst) := sortLe_mem.mpr htk
  obtain ⟨master, hpick⟩ :=
    @pick_master_ok_of_nonempty cfg.preferred_master
      (sortLe strLe (smap.map Prod.fst)) (List.ne_nil_of_mem htick)
  refine ⟨_, build_market_eq_of hne hl hpick, ?_⟩
  rcases loadFiles_getVal _ _ _ _ hl t with
    ⟨g, hg, s, hcs, hsm, hfm⟩ | ⟨hnone, _, _⟩
  · have hspec := lastFileWith_spec hg
    obtain ⟨hgkey, u, v, hdecomp, hvno⟩ := hspec
    have hgmem : g ∈ sortLe fileLe files := by
      rw [hdecomp]
      exact List.mem_append.mpr (Or.inr (List.mem_cons_self _ _))
    have hgf₂ : g = f₂ := by
      rcases hlast g (sortLe_mem.mp hgmem) hgkey with h' | hglt
      · exact h'
      · -- the last matching file cannot sort strictly before f₂
        exfalso
        have hf₂sorted : f₂ ∈ sortLe fileLe files := sortLe_mem.mpr h₂
        rw [hdecomp] at hf₂sorted
        rcases List.mem_append.mp hf₂sorted with hu | hgv
        · -- f₂ before g in the path-sorted list contradicts g.path < f₂.path
          have hpw := @sortLe_pairwise MFile fileLe
            (fun a b : MFile => strLe_total a.path b.path)
            (fun a b c hab hbc => strLe_trans hab hbc) files
          rw [hdecomp] at hpw
          have := (List.pairwise_append.mp hpw).2.2 f₂ hu g
            (List.mem_cons_self _ _)
          exact strLt_strLe_absurd hglt this
        · rcases List.mem_cons.mp hgv with heq | hv
          · exact strLt_strLe_absurd hglt (heq ▸ strLe_refl g.path)
          · exact hvno f₂ hv hk₂
    subst hgf₂
    exact ⟨s, hcs, hsm, hfm, by
      rw [mkMarket_tickers]
      rw [(sortLe_perm strLe (smap.map Prod.fst)).count_eq]
      exact List.count_eq_one_of_mem
        (loadFiles_keys_nodup _ _ _ _ hl (by simp)) htk⟩
  · rw [lastFileWith_none_iff] at hnone
    exact absurd hk₂ (hnone f₂ (sortLe_mem.mpr h₂))

/-- C10 witness: stems "ZA" and "Za" collide on symbol "ZA"; the build over the
three-file fixture succeeds and keeps the series and metadata cleaned from
"us/Za.csv" (the path-sorted last of the colliding files), with a single "ZA"
column. -/
theorem C10_witness :
    ∃ mkt, build_market idSort cfg0 files10 = .ok mkt ∧
      ∃ s, clean_single_csv_fixed_format idSort fileZa2.recs = .ok s ∧
        getVal "ZA" mkt.seriesMap = some s ∧
        getVal "ZA" mkt.manifest.files = some (mkMeta fileZa2 s) ∧
        mkt.tickers.count "ZA" = 1 :=
  @C10_case_collision_last_file_wins idSort cfg0 files10 fileZa2 "ZA"
    (by decide) (by decide) (by decide) (by decide)

end BuildMatrix
